import Mathlib

/-!
# Verification of the lattice-db core against its specification

This file gives a shallow embedding, in Lean 4, of the core of the
`lattice-db` embedded property-graph database (value primitives, generational
arena, graph builder, diff engine, writer index updates, query compiler and
query evaluator) and proves the specification's claims about it.

Machine integers (`u64`, `usize`, `u32`) are modelled as `Nat`; all the
operations verified here stay far from the wrap-around boundary, and where a
claim depends on the 64-bit range (the value validator) the bound is an
explicit hypothesis.  External collaborators that the specification puts out
of scope are abstracted: the `rapidhash_v3` text hash is an arbitrary
function `String → Nat` threaded as a parameter, the `redb` key-value tables
are functions from keys to optional values, the Roaring bitmaps are
`Finset Nat`, and `bincode` serialization is elided (a `PreparedGraph` is
carried structurally where the Rust code carries its encoding).  Rust
`HashMap`s are modelled as association lists where an insert conses in
front (so the most recent insert wins on lookup, matching `HashMap`
replacement semantics), `Vec` stacks (`push`/`pop`) are association-free
lists with cons/head, and panics (`unwrap`/`expect`) are modelled by
`Option`-valued functions returning `none`.
-/

namespace LatticeDb

/-! ## Value primitives (`src/utils/values.rs`) -/

/-- `Primitive`: tagged scalar value stored in the graph (`UInt(u64)` or
`Text(String)`). -/
inductive Primitive where
  | uint (n : Nat)
  | text (s : String)
deriving DecidableEq, Repr

/-- `PRIMITIVE_UINT = 1 << 56`. -/
def PRIMITIVE_UINT : Nat := 1 <<< 56

/-- `PRIMITIVE_TEXT = 2 << 56`. -/
def PRIMITIVE_TEXT : Nat := 2 <<< 56

/-- `Primitive::verify`: a `UInt` value with any of the 8 high bits set is
rejected with `NumberTooBig`; text always passes.  The result is modelled as
a `Bool` (`true` = `Ok(())`, `false` = `Err(NumberTooBig)`). -/
def Primitive.verifyOk : Primitive → Bool
  | .uint n => (n &&& 0xFF00000000000000) == 0
  | .text _ => true

/-- `Primitive::hash`, parametrised by the external `rapidhash_v3` function
(`rapid`), which is outside the specification's scope. -/
def Primitive.hash (rapid : String → Nat) : Primitive → Nat
  | .uint n => n ||| PRIMITIVE_UINT
  | .text t => ((rapid t) &&& 0x00FFFFFFFFFFFFFF) ||| PRIMITIVE_TEXT

/-! Arithmetic facts about the tag layout. -/

theorem mask56_eq : (0x00FFFFFFFFFFFFFF : Nat) = 2 ^ 56 - 1 := by norm_num

theorem maskHigh_eq : (0xFF00000000000000 : Nat) = 255 <<< 56 := by
  rw [Nat.shiftLeft_eq]

theorem uint_hash_eq {n : Nat} (h : n < 2 ^ 56) (rapid : String → Nat) :
    Primitive.hash rapid (.uint n) = (0x01 <<< 56) ||| (n &&& 0x00FFFFFFFFFFFFFF) := by
  rw [Primitive.hash, mask56_eq, Nat.and_pow_two_sub_one_of_lt_two_pow h, Nat.lor_comm]
  rfl

theorem uint_hash_lt {n : Nat} (h : n < 2 ^ 56) (rapid : String → Nat) :
    Primitive.hash rapid (.uint n) < 2 ^ 57 := by
  have h1 : n < 2 ^ 57 := lt_of_lt_of_le h (Nat.pow_le_pow_right (by norm_num) (by norm_num))
  have h2 : PRIMITIVE_UINT < 2 ^ 57 := by rw [PRIMITIVE_UINT, Nat.shiftLeft_eq]; norm_num
  simpa [Primitive.hash] using Nat.or_lt_two_pow h1 h2

theorem text_hash_ge (rapid : String → Nat) (s : String) :
    2 ^ 57 ≤ Primitive.hash rapid (.text s) := by
  apply Nat.testBit_implies_ge (i := 57)
  have ht : Nat.testBit PRIMITIVE_TEXT 57 = true := by
    have : PRIMITIVE_TEXT = 2 ^ 57 := by rw [PRIMITIVE_TEXT, Nat.shiftLeft_eq]; norm_num
    rw [this, Nat.testBit_two_pow_self]
  simp [Primitive.hash, Nat.testBit_or, ht]

theorem uint_hash_inj {m n : Nat} (hm : m < 2 ^ 56) (hn : n < 2 ^ 56)
    (rapid : String → Nat)
    (h : Primitive.hash rapid (.uint m) = Primitive.hash rapid (.uint n)) : m = n := by
  have key : ∀ k : Nat, k < 2 ^ 56 → (k ||| PRIMITIVE_UINT) &&& (2 ^ 56 - 1) = k := by
    intro k hk
    rw [Nat.and_distrib_right, Nat.and_pow_two_sub_one_of_lt_two_pow hk]
    have : PRIMITIVE_UINT &&& (2 ^ 56 - 1) = 0 := by
      have : PRIMITIVE_UINT = 2 ^ 56 := by rw [PRIMITIVE_UINT, Nat.shiftLeft_eq]; norm_num
      rw [this, Nat.and_pow_two_sub_one_eq_mod, Nat.mod_self]
    rw [this, Nat.or_zero]
  have h' : (m ||| PRIMITIVE_UINT) &&& (2 ^ 56 - 1) = (n ||| PRIMITIVE_UINT) &&& (2 ^ 56 - 1) := by
    simpa [Primitive.hash] using congrArg (· &&& (2 ^ 56 - 1)) h
  rwa [key m hm, key n hn] at h'

/-- C6: for unsigned-integer primitives in `[0, 2^56)` the hash is
`(0x01 << 56) | (value & 0x00FF_FFFF_FFFF_FFFF)`; for text primitives it is
`(0x02 << 56) | (rapidhash(text) & 0x00FF_FFFF_FFFF_FFFF)`; the hash is
injective on integers in that domain; and an integer hash never equals a
text hash. -/
theorem C6_hash_layout (rapid : String → Nat) :
    (∀ n : Nat, n < 2 ^ 56 →
      Primitive.hash rapid (.uint n) = (0x01 <<< 56) ||| (n &&& 0x00FFFFFFFFFFFFFF)) ∧
    (∀ s : String,
      Primitive.hash rapid (.text s) = (0x02 <<< 56) ||| (rapid s &&& 0x00FFFFFFFFFFFFFF)) ∧
    (∀ m n : Nat, m < 2 ^ 56 → n < 2 ^ 56 →
      Primitive.hash rapid (.uint m) = Primitive.hash rapid (.uint n) → m = n) ∧
    (∀ (n : Nat) (s : String), n < 2 ^ 56 →
      Primitive.hash rapid (.uint n) ≠ Primitive.hash rapid (.text s)) := by
  refine ⟨fun n hn => uint_hash_eq hn rapid, fun s => ?_,
    fun m n hm hn h => uint_hash_inj hm hn rapid h, fun n s hn h => ?_⟩
  · rw [Primitive.hash, Nat.lor_comm]
    rfl
  · have h1 := uint_hash_lt hn rapid
    have h2 := text_hash_ge rapid s
    omega

/-- Witness for C6 at concrete inputs. -/
theorem C6_hash_layout_witness :
    Primitive.hash (fun _ => 37) (.uint 5) = (0x01 <<< 56) ||| (5 &&& 0x00FFFFFFFFFFFFFF) ∧
    Primitive.hash (fun _ => 37) (.text "a") =
      (0x02 <<< 56) ||| (37 &&& 0x00FFFFFFFFFFFFFF) ∧
    Primitive.hash (fun _ => 37) (.uint 5) ≠ Primitive.hash (fun _ => 37) (.text "a") :=
  ⟨(C6_hash_layout (fun _ => 37)).1 5 (by norm_num),
   (C6_hash_layout (fun _ => 37)).2.1 "a",
   (C6_hash_layout (fun _ => 37)).2.2.2 5 "a" (by norm_num)⟩

/-! ## Generational arena (`src/utils/generational_vector.rs`)

`freed` is a stack in the source (`Vec::push`/`Vec::pop` at the back); it is
modelled as a list with cons-push and head-pop, which has the same LIFO
semantics. -/

/-- `Handle { generation: u32, index: usize }`. -/
structure Handle where
  generation : Nat
  index : Nat
deriving DecidableEq, Repr

/-- `Slot { item: Option<T>, generation: u32 }`. -/
structure Slot (T : Type) where
  item : Option T
  generation : Nat
deriving DecidableEq, Repr

/-- `GenVec { items: Vec<Slot<T>>, freed: Vec<usize> }`. -/
structure GenVec (T : Type) where
  items : List (Slot T)
  freed : List Nat
deriving DecidableEq, Repr

namespace GenVec

variable {T : Type}

/-- `GenVec::new`. -/
def empty : GenVec T := ⟨[], []⟩

/-- `GenVec::add`: fill the most recently freed slot (keeping its
generation), else append a fresh generation-0 slot.  Returns the new vector
and the handle the source returns. -/
def add (g : GenVec T) (item : T) : GenVec T × Handle :=
  match g.freed with
  | idx :: rest =>
      let gen := (g.items.getD idx ⟨none, 0⟩).generation
      (⟨g.items.set idx ⟨some item, gen⟩, rest⟩, ⟨gen, idx⟩)
  | [] =>
      (⟨g.items ++ [⟨some item, 0⟩], []⟩, ⟨0, g.items.length⟩)

/-- `GenVec::remove`: on a generation match, clear the payload, bump the
slot's generation, push the index on the free list and return the payload. -/
def remove (g : GenVec T) (h : Handle) : GenVec T × Option T :=
  match g.items.get? h.index with
  | none => (g, none)
  | some slot =>
      if slot.generation = h.generation then
        (⟨g.items.set h.index ⟨none, slot.generation + 1⟩, h.index :: g.freed⟩, slot.item)
      else (g, none)

/-- `GenVec::get` / the read part of `GenVec::get_mut`. -/
def get (g : GenVec T) (h : Handle) : Option T :=
  match g.items.get? h.index with
  | none => none
  | some slot => if slot.generation = h.generation then slot.item else none

/-- A mutation through `get_mut` under `if let Some(x) = ...` (no-op when the
handle does not resolve). -/
def modifyIf (g : GenVec T) (h : Handle) (f : T → T) : GenVec T :=
  match g.items.get? h.index with
  | none => g
  | some slot =>
      if slot.generation = h.generation then
        ⟨g.items.set h.index { slot with item := slot.item.map f }, g.freed⟩
      else g

/-- `GenVec::get_index`: index-only accessor, ignores generations. -/
def getIndex (g : GenVec T) (idx : Nat) : Option T :=
  (g.items.get? idx).bind (·.item)

/-- `GenVec::iter_from` (also the read view of `iter_mut_from`): enumerate,
skip the first `start` slots, keep non-empty slots, yielding the handle with
the slot's current generation. -/
def iterFrom (g : GenVec T) (start : Nat) : List (Handle × T) :=
  (g.items.enum.drop start).filterMap fun p =>
    p.2.item.map fun v => (⟨p.2.generation, p.1⟩, v)

/-- `GenVec::iter`. -/
def iter (g : GenVec T) : List (Handle × T) := g.iterFrom 0

end GenVec

/-! ## Graph builder (`src/graph/graph_builder.rs`)

`PropertyHandle(u64)` is a bare id, modelled as `Nat`. -/

/-- `VertexData`. -/
structure VertexData where
  global_id : Option Nat
  attributes : List (Nat × Primitive)
  incoming_edges : List Handle
  outgoing_edges : List Handle
deriving DecidableEq, Repr

/-- `EdgeData { from, to, label }` (vertex handles and a label property). -/
structure EdgeData where
  from_v : Handle
  to_v : Handle
  label : Nat
deriving DecidableEq, Repr

/-- `PreparedVertex { id, attrs }` (`src/graph/graph_prepared.rs`). -/
structure PreparedVertex where
  id : Nat
  attrs : List (Nat × Primitive)
deriving DecidableEq, Repr

/-- `PreparedEdge { from, label, to }`. -/
structure PreparedEdge where
  from_v : Nat
  label : Nat
  to_v : Nat
deriving DecidableEq, Repr

/-- `PreparedGraph { id, vertices, edges }`. -/
structure PreparedGraph where
  id : Nat
  vertices : List PreparedVertex
  edges : List PreparedEdge
deriving DecidableEq, Repr

/-- `GraphBuilder`; `old_graph_data` is `Option<OldGraphData { id, graph }>`
flattened to a pair (the stored id always equals `graph.id` at load time, but
the source keeps both, so we do too). -/
structure GraphBuilder where
  new_vertex_count : Nat
  old_graph_data : Option (Nat × PreparedGraph)
  vertices : GenVec VertexData
  edges : GenVec EdgeData
deriving DecidableEq, Repr

namespace GraphBuilder

/-- `GraphBuilder::new`. -/
def new : GraphBuilder := ⟨0, none, .empty, .empty⟩

/-- `GraphBuilder::new_vertex`: bump the new-vertex counter, insert an empty
vertex; the returned handle is what the `VertexBuilder` wraps. -/
def newVertex (b : GraphBuilder) : GraphBuilder × Handle :=
  let (vs, h) := b.vertices.add ⟨none, [], [], []⟩
  ({ b with new_vertex_count := b.new_vertex_count + 1, vertices := vs }, h)

/-- `Vec::swap_remove(i)`: replace position `i` with the last element and
shrink by one. -/
def swapRemove {α : Type} (l : List α) (i : Nat) : List α :=
  match l.getLast? with
  | none => l
  | some last => (l.set i last).dropLast

/-- `iter().position(|p| *p == handle)` followed by `swap_remove` under
`if let Some(idx) = ...`. -/
def detach (l : List Handle) (h : Handle) : List Handle :=
  match l.findIdx? (· = h) with
  | some i => swapRemove l i
  | none => l

/-- `GraphBuilder::remove_edge`: remove from the arena, then detach the
handle from the source's outgoing list and the destination's incoming list.
The returned `Bool` is `true` for `Ok(())`. -/
def removeEdge (b : GraphBuilder) (h : Handle) : GraphBuilder × Bool :=
  match b.edges.remove h with
  | (es, some edge) =>
      let b1 := { b with edges := es }
      let b2 := { b1 with vertices :=
        b1.vertices.modifyIf edge.from_v fun v =>
          { v with outgoing_edges := detach v.outgoing_edges h } }
      let b3 := { b2 with vertices :=
        b2.vertices.modifyIf edge.to_v fun v =>
          { v with incoming_edges := detach v.incoming_edges h } }
      (b3, true)
  | (es, none) => ({ b with edges := es }, false)

/-- `GraphBuilder::remove_vertex`: remove the vertex (decrementing the
new-vertex counter when it had no global id), then remove every edge listed
on it, ignoring per-edge errors. -/
def removeVertex (b : GraphBuilder) (h : Handle) : GraphBuilder × Bool :=
  match b.vertices.remove h with
  | (vs, some v) =>
      let cnt := if v.global_id = none then b.new_vertex_count - 1 else b.new_vertex_count
      let b1 := { b with vertices := vs, new_vertex_count := cnt }
      let b2 := (v.incoming_edges ++ v.outgoing_edges).foldl
        (fun acc e => (removeEdge acc e).1) b1
      (b2, true)
  | (vs, none) => ({ b with vertices := vs }, false)

/-- `GraphBuilder::new_edge`: both endpoints must resolve; the edge is added
and cross-linked into the destination's incoming list and the source's
outgoing list (in that order). -/
def newEdge (b : GraphBuilder) (f : Handle) (label : Nat) (t : Handle) :
    Option GraphBuilder :=
  match b.vertices.get f with
  | none => none
  | some _ =>
    match b.vertices.get t with
    | none => none
    | some _ =>
      let (es, eh) := b.edges.add ⟨f, t, label⟩
      let b1 := { b with edges := es }
      let b2 := { b1 with vertices := b1.vertices.modifyIf t fun v =>
        { v with incoming_edges := v.incoming_edges ++ [eh] } }
      let b3 := { b2 with vertices := b2.vertices.modifyIf f fun v =>
        { v with outgoing_edges := v.outgoing_edges ++ [eh] } }
      some b3

/-- Result of `VertexBuilder::new_attribute`. -/
inductive AttrResult where
  | ok
  | numberTooBig
deriving DecidableEq, Repr

/-- `VertexBuilder::new_attribute`: verify the primitive first; on success
push `(attr, value)` onto the vertex's attribute list; on failure return
`NumberTooBig` with nothing mutated. -/
def newAttribute (b : GraphBuilder) (h : Handle) (attr : Nat) (v : Primitive) :
    AttrResult × GraphBuilder :=
  if v.verifyOk then
    (.ok, { b with vertices := b.vertices.modifyIf h fun vd =>
      { vd with attributes := vd.attributes ++ [(attr, v)] } })
  else
    (.numberTooBig, b)

/-- A write through the public `GraphBuilder::get_mut_attributes` borrow:
an arbitrary replacement of one vertex's attribute list. -/
def setAttributes (b : GraphBuilder) (h : Handle) (attrs : List (Nat × Primitive)) :
    GraphBuilder :=
  { b with vertices := b.vertices.modifyIf h fun vd => { vd with attributes := attrs } }

/-- `EdgeBuilder::set_source`.  Faithful to the source: the vertex handle is
validated against the EDGES arena (`self.graph.edges.get(handle.0)`), and
only the edge's `from` field is reassigned — neither endpoint's edge list is
touched.  `none` models the `Err(VertexNotFound)` return (and the
`get_self().unwrap()` panic, which cannot fire for a live `EdgeBuilder`). -/
def setSource (b : GraphBuilder) (eh vh : Handle) : Option GraphBuilder :=
  match b.edges.get vh with
  | none => none
  | some _ =>
    match b.edges.get eh with
    | none => none
    | some _ => some { b with edges := b.edges.modifyIf eh fun e => { e with from_v := vh } }

/-- `EdgeBuilder::set_destination` (same shape as `set_source`). -/
def setDestination (b : GraphBuilder) (eh vh : Handle) : Option GraphBuilder :=
  match b.edges.get vh with
  | none => none
  | some _ =>
    match b.edges.get eh with
    | none => none
    | some _ => some { b with edges := b.edges.modifyIf eh fun e => { e with to_v := vh } }

/-- `EdgeBuilder::set_label`. -/
def setLabel (b : GraphBuilder) (eh : Handle) (label : Nat) : Option GraphBuilder :=
  match b.edges.get eh with
  | none => none
  | some _ => some { b with edges := b.edges.modifyIf eh fun e => { e with label := label } }

end GraphBuilder

/-! ## C7: attribute-insertion validation -/

theorem land_high_eq_zero_iff {n : Nat} (h64 : n < 2 ^ 64) :
    n &&& 0xFF00000000000000 = 0 ↔ n < 2 ^ 56 := by
  constructor
  · intro h0
    by_contra hge
    push_neg at hge
    obtain ⟨i, hi56, hbit⟩ := Nat.ge_two_pow_implies_high_bit_true hge
    have hi64 : i < 64 := by
      by_contra hge64
      push_neg at hge64
      have hlt : n < 2 ^ i :=
        lt_of_lt_of_le h64 (Nat.pow_le_pow_right (by norm_num) hge64)
      rw [Nat.testBit_lt_two_pow hlt] at hbit
      exact Bool.noConfusion hbit
    have hmask : Nat.testBit 0xFF00000000000000 i = true := by
      rw [maskHigh_eq, Nat.testBit_shiftLeft]
      have h2 : Nat.testBit 255 (i - 56) = true := by
        have h255 : (255 : Nat) = 2 ^ 8 - 1 := by norm_num
        rw [h255, Nat.testBit_two_pow_sub_one]
        simp only [decide_eq_true_eq]
        omega
      simp [hi56, h2]
    have hb : Nat.testBit (n &&& 0xFF00000000000000) i = true := by
      rw [Nat.testBit_and, hbit, hmask]; rfl
    rw [h0] at hb
    simp at hb
  · intro hlt
    apply Nat.eq_of_testBit_eq
    intro i
    rw [Nat.testBit_and, Nat.zero_testBit]
    rcases lt_or_ge i 56 with hi | hi
    · have hm : Nat.testBit 0xFF00000000000000 i = false := by
        rw [maskHigh_eq, Nat.testBit_shiftLeft]
        simp [Nat.not_le.mpr hi]
      simp [hm]
    · have hn : Nat.testBit n i = false :=
        Nat.testBit_lt_two_pow
          (lt_of_lt_of_le hlt (Nat.pow_le_pow_right (by norm_num) hi))
      simp [hn]

/-- C7: `VertexBuilder::new_attribute` fails with `NumberTooBig` exactly when
the supplied unsigned integer (a `u64`, hence `< 2^64`) is `≥ 2^56`; text
values never fail; and on failure the builder is returned unchanged. -/
theorem C7_new_attribute_validation (b : GraphBuilder) (h : Handle) (attr : Nat) :
    (∀ n : Nat, n < 2 ^ 64 →
      ((GraphBuilder.newAttribute b h attr (.uint n)).1 = .numberTooBig ↔ 2 ^ 56 ≤ n)) ∧
    (∀ s : String, (GraphBuilder.newAttribute b h attr (.text s)).1 = .ok) ∧
    (∀ v : Primitive, (GraphBuilder.newAttribute b h attr v).1 = .numberTooBig →
      (GraphBuilder.newAttribute b h attr v).2 = b) := by
  refine ⟨fun n h64 => ?_, fun s => ?_, fun v hv => ?_⟩
  · rw [GraphBuilder.newAttribute]
    by_cases hok : (Primitive.uint n).verifyOk
    · rw [if_pos hok]
      have hlt := (land_high_eq_zero_iff h64).mp
        (by simpa [Primitive.verifyOk] using hok)
      exact iff_of_false (by simp) (by omega)
    · rw [if_neg hok]
      have hne : ¬ n &&& 0xFF00000000000000 = 0 := by
        simpa [Primitive.verifyOk] using hok
      have := (land_high_eq_zero_iff h64).not.mp hne
      exact iff_of_true rfl (by omega)
  · simp [GraphBuilder.newAttribute, Primitive.verifyOk]
  · rw [GraphBuilder.newAttribute] at hv ⊢
    by_cases hok : v.verifyOk
    · simp [hok] at hv
    · simp [hok]

/-- Witness for C7 at a concrete oversized value and a concrete error. -/
theorem C7_new_attribute_validation_witness :
    ((GraphBuilder.newAttribute GraphBuilder.new ⟨0, 0⟩ 3 (.uint (2 ^ 60))).1
        = .numberTooBig ↔ 2 ^ 56 ≤ 2 ^ 60) ∧
    (GraphBuilder.newAttribute GraphBuilder.new ⟨0, 0⟩ 3 (.text "x")).1 = .ok :=
  ⟨(C7_new_attribute_validation GraphBuilder.new ⟨0, 0⟩ 3).1 (2 ^ 60) (by norm_num),
   (C7_new_attribute_validation GraphBuilder.new ⟨0, 0⟩ 3).2.1 "x"⟩

/-! ## Loading a persisted graph (`GraphBuilder::from_prepared`) -/

namespace GraphBuilder

/-- The vertex-population phase of `from_prepared`: re-insert each persisted
vertex in order and record `id_map: global id → handle` (`HashMap::insert`
replaces, modelled by consing so the most recent binding wins on lookup). -/
def fromPreparedVerts (vs : List PreparedVertex) : GenVec VertexData × List (Nat × Handle) :=
  vs.foldl
    (fun acc v =>
      let r := acc.1.add ⟨some v.id, v.attrs, [], []⟩
      (r.1, (v.id, r.2) :: acc.2))
    (GenVec.empty, [])

/-- The edge-population phase of `from_prepared`: resolve both endpoints in
`id_map` (the `expect` panics are modelled by `none`), add the edge, then
push its handle onto the source's outgoing list and the destination's
incoming list. -/
def fromPreparedEdges (idMap : List (Nat × Handle)) :
    List PreparedEdge → GenVec VertexData → GenVec EdgeData →
    Option (GenVec VertexData × GenVec EdgeData)
  | [], vs, es => some (vs, es)
  | e :: rest, vs, es =>
    match idMap.lookup e.from_v, idMap.lookup e.to_v with
    | some hf, some ht =>
        let r := es.add ⟨hf, ht, e.label⟩
        let vs1 := vs.modifyIf hf fun v =>
          { v with outgoing_edges := v.outgoing_edges ++ [r.2] }
        let vs2 := vs1.modifyIf ht fun v =>
          { v with incoming_edges := v.incoming_edges ++ [r.2] }
        fromPreparedEdges idMap rest vs2 r.1
    | _, _ => none

/-- `GraphBuilder::from_prepared`. -/
def fromPrepared (g : PreparedGraph) : Option GraphBuilder :=
  let r := fromPreparedVerts g.vertices
  (fromPreparedEdges r.2 g.edges r.1 GenVec.empty).map
    fun p => ⟨0, some (g.id, g), p.1, p.2⟩

end GraphBuilder

/-! ## Diff engine (`PreparedGraph::commit_data_from_builder`,
`src/graph/graph_prepared.rs`) -/

/-- The sort key `(attr.0, val.hash())`, as a lexicographic `≤`.  The source
uses `sort_unstable_by_key`; any sort by this key is admissible, and we use
a stable insertion sort. -/
def attrLe (rapid : String → Nat) (x y : Nat × Primitive) : Prop :=
  x.1 < y.1 ∨ (x.1 = y.1 ∧ x.2.hash rapid ≤ y.2.hash rapid)

instance attrLeDec (rapid : String → Nat) : DecidableRel (attrLe rapid) := fun x y => by
  unfold attrLe; infer_instance

/-- `new_attrs.sort_unstable_by_key(|(attr, val)| (attr.0, val.hash()))`. -/
def sortAttrs (rapid : String → Nat) (l : List (Nat × Primitive)) : List (Nat × Primitive) :=
  l.insertionSort (attrLe rapid)

/-- Strict lexicographic order on `(u64, u64)` keys (the `Ord` used by the
two-pointer merge's `<` comparison). -/
def keyLt (x y : Nat × Nat) : Prop := x.1 < y.1 ∨ (x.1 = y.1 ∧ x.2 < y.2)

instance keyLtDec : DecidableRel keyLt := fun x y => by
  unfold keyLt; infer_instance

/-- The two-pointer merge of the "edited vertex" branch: walk the old and
(sorted) new attribute lists by `(property_id, value_hash)` key; keys only
in `old` are emitted as removals, keys only in `new` as additions, matches
pass through.  Returns `(rem, add)` in emission order. -/
def mergeAttrs (rapid : String → Nat) (gid : Nat) :
    List (Nat × Primitive) → List (Nat × Primitive) →
    List (Nat × Nat × Nat) × List (Nat × Nat × Nat)
  | [], [] => ([], [])
  | o :: old, [] =>
      let r := mergeAttrs rapid gid old []
      ((gid, o.1, o.2.hash rapid) :: r.1, r.2)
  | [], n :: newl =>
      let r := mergeAttrs rapid gid [] newl
      (r.1, (gid, n.1, n.2.hash rapid) :: r.2)
  | o :: old, n :: newl =>
      let ok : Nat × Nat := (o.1, o.2.hash rapid)
      let nk : Nat × Nat := (n.1, n.2.hash rapid)
      if ok = nk then
        mergeAttrs rapid gid old newl
      else if keyLt ok nk then
        let r := mergeAttrs rapid gid old (n :: newl)
        ((gid, o.1, o.2.hash rapid) :: r.1, r.2)
      else
        let r := mergeAttrs rapid gid (o :: old) newl
        (r.1, (gid, n.1, n.2.hash rapid) :: r.2)
  termination_by old newl => old.length + newl.length

/-- Accumulator of the vertex phase of the diff (the `mut` locals of the
source: the global-id cursor, the four delta lists touched by vertices, the
rebuilt vertex list and the `idx_to_global` map). -/
structure VDiffState where
  cursor : Nat
  add_attrs : List (Nat × Nat × Nat)
  rem_attrs : List (Nat × Nat × Nat)
  deleted_vertices : List Nat
  proc_vertices : List PreparedVertex
  idx_to_global : List (Nat × Nat)
deriving DecidableEq, Repr

/-- One iteration of the old-vertex loop at position `idx` for old vertex
`ov`: unchanged / edited / deleted / deleted-and-refilled, exactly as in the
source; `none` models the `global_id.unwrap()` panic. -/
def vStep (rapid : String → Nat) (vs : GenVec VertexData) (idx : Nat)
    (ov : PreparedVertex) (s : VDiffState) : Option VDiffState :=
  match vs.get ⟨0, idx⟩ with
  | some cv =>
    if cv.attributes = ov.attrs then
      match cv.global_id with
      | none => none
      | some gid => some { s with
          idx_to_global := (idx, gid) :: s.idx_to_global,
          proc_vertices := s.proc_vertices ++ [⟨gid, ov.attrs⟩] }
    else
      match cv.global_id with
      | none => none
      | some gid =>
        let newAttrs := sortAttrs rapid cv.attributes
        let r := mergeAttrs rapid gid ov.attrs newAttrs
        some { s with
          rem_attrs := s.rem_attrs ++ r.1,
          add_attrs := s.add_attrs ++ r.2,
          idx_to_global := (idx, gid) :: s.idx_to_global,
          proc_vertices := s.proc_vertices ++ [⟨gid, newAttrs⟩] }
  | none =>
    let s1 := { s with
      deleted_vertices := s.deleted_vertices ++ [ov.id],
      rem_attrs := s.rem_attrs ++ ov.attrs.map fun a => (ov.id, a.1, a.2.hash rapid) }
    match vs.getIndex idx with
    | some nv =>
      let newAttrs := sortAttrs rapid nv.attributes
      some { s1 with
        add_attrs := s1.add_attrs ++ newAttrs.map fun a => (s1.cursor, a.1, a.2.hash rapid),
        idx_to_global := (idx, s1.cursor) :: s1.idx_to_global,
        proc_vertices := s1.proc_vertices ++ [⟨s1.cursor, newAttrs⟩],
        cursor := s1.cursor + 1 }
    | none => some s1

/-- The old-vertex loop, iterating positions `idx, idx+1, …` over the
persisted vertex list. -/
def vLoop (rapid : String → Nat) (vs : GenVec VertexData) :
    List PreparedVertex → Nat → VDiffState → Option VDiffState
  | [], _, s => some s
  | ov :: rest, idx, s => (vStep rapid vs idx ov s).bind (vLoop rapid vs rest (idx + 1))

/-- The guaranteed-new-vertex loop (`iter_mut_from(new_vertices_start)`):
each payload slot allocates the next cursor value and emits its attributes
as additions. -/
def vNew (rapid : String → Nat) (pairs : List (Handle × VertexData))
    (s : VDiffState) : VDiffState :=
  pairs.foldl
    (fun s p =>
      let gid := s.cursor
      let newAttrs := sortAttrs rapid p.2.attributes
      { s with
        cursor := s.cursor + 1,
        add_attrs := s.add_attrs ++ newAttrs.map fun a => (gid, a.1, a.2.hash rapid),
        idx_to_global := (p.1.index, gid) :: s.idx_to_global,
        proc_vertices := s.proc_vertices ++ [⟨gid, newAttrs⟩] })
    s

/-- Accumulator of the edge phase of the diff. -/
structure EDiffState where
  add_edges : List (Nat × Nat × Nat)
  rem_edges : List (Nat × Nat × Nat)
  proc_edges : List PreparedEdge
deriving DecidableEq, Repr

/-- One iteration of the old-edge loop at position `idx` for old edge `oe`;
`none` models the `idx_to_global` `expect` panics. -/
def eStep (es : GenVec EdgeData) (idxg : List (Nat × Nat)) (idx : Nat)
    (oe : PreparedEdge) (t : EDiffState) : Option EDiffState :=
  match es.get ⟨0, idx⟩ with
  | some ce =>
    match idxg.lookup ce.from_v.index, idxg.lookup ce.to_v.index with
    | some f, some tt =>
      if f = oe.from_v ∧ ce.label = oe.label ∧ tt = oe.to_v then
        some { t with proc_edges := t.proc_edges ++ [⟨oe.from_v, oe.label, oe.to_v⟩] }
      else
        some { t with
          rem_edges := t.rem_edges ++ [(oe.from_v, oe.label, oe.to_v)],
          add_edges := t.add_edges ++ [(f, ce.label, tt)],
          proc_edges := t.proc_edges ++ [⟨f, ce.label, tt⟩] }
    | _, _ => none
  | none =>
    let t1 := { t with rem_edges := t.rem_edges ++ [(oe.from_v, oe.label, oe.to_v)] }
    match es.getIndex idx with
    | some ne =>
      match idxg.lookup ne.from_v.index, idxg.lookup ne.to_v.index with
      | some f, some tt => some { t1 with
          add_edges := t1.add_edges ++ [(f, ne.label, tt)],
          proc_edges := t1.proc_edges ++ [⟨f, ne.label, tt⟩] }
      | _, _ => none
    | none => some t1

/-- The old-edge loop. -/
def eLoop (es : GenVec EdgeData) (idxg : List (Nat × Nat)) :
    List PreparedEdge → Nat → EDiffState → Option EDiffState
  | [], _, t => some t
  | oe :: rest, idx, t => (eStep es idxg idx oe t).bind (eLoop es idxg rest (idx + 1))

/-- The guaranteed-new-edge loop (`iter_from(new_edges_start)`). -/
def eNew (idxg : List (Nat × Nat)) :
    List (Handle × EdgeData) → EDiffState → Option EDiffState
  | [], t => some t
  | p :: rest, t =>
    match idxg.lookup p.2.from_v.index, idxg.lookup p.2.to_v.index with
    | some f, some tt =>
        eNew idxg rest { t with
          add_edges := t.add_edges ++ [(f, p.2.label, tt)],
          proc_edges := t.proc_edges ++ [⟨f, p.2.label, tt⟩] }
    | _, _ => none

/-- `GraphCommitData`.  `prepared_graph` is kept structural where the source
stores its `bincode` encoding (serialization is an external collaborator). -/
structure GraphCommitData where
  graph_id : Nat
  prepared_graph : PreparedGraph
  add_attrs : List (Nat × Nat × Nat)
  rem_attrs : List (Nat × Nat × Nat)
  add_edges : List (Nat × Nat × Nat)
  rem_edges : List (Nat × Nat × Nat)
  deleted_vertices : List Nat
deriving DecidableEq, Repr

/-- The vertex phase of `commit_data_from_builder`: run the old-vertex loop
over the persisted vertices (none when the builder has no old data, making
`new_vertices_start = 0`), then the new-vertex loop over the remaining arena
slots. -/
def vPhase (rapid : String → Nat) (b : GraphBuilder) (start_id : Nat) :
    Option VDiffState :=
  let oldVs := match b.old_graph_data with
    | some og => og.2.vertices
    | none => []
  (vLoop rapid b.vertices oldVs 0 ⟨start_id, [], [], [], [], []⟩).map
    (vNew rapid (b.vertices.iterFrom oldVs.length))

/-- The edge phase of `commit_data_from_builder`. -/
def ePhase (b : GraphBuilder) (idxg : List (Nat × Nat)) : Option EDiffState :=
  let oldEs := match b.old_graph_data with
    | some og => og.2.edges
    | none => []
  (eLoop b.edges idxg oldEs 0 ⟨[], [], []⟩).bind
    (eNew idxg (b.edges.iterFrom oldEs.length))

/-- `PreparedGraph::commit_data_from_builder` (the `_auto_queries` argument
is unused by the source).  Besides the `GraphCommitData` it also returns the
final value of `global_id_cursor`, which the correctness claims about ID
consumption are about. -/
def commitDataFromBuilder (rapid : String → Nat) (b : GraphBuilder)
    (start_id graph_id : Nat) : Option (GraphCommitData × Nat) :=
  (vPhase rapid b start_id).bind fun sv =>
    (ePhase b sv.idx_to_global).map fun se =>
      (⟨graph_id, ⟨graph_id, sv.proc_vertices, se.proc_edges⟩,
        sv.add_attrs, sv.rem_attrs, se.add_edges, se.rem_edges,
        sv.deleted_vertices⟩,
       sv.cursor)

/-! ## General facts about the diff's vertex loop -/

/-- Does the old-vertex loop allocate a fresh global id at position `idx`?
True exactly for "deleted and refilled" slots: the generation-0 lookup fails
but the index-only accessor finds a payload. -/
def allocAt (vs : GenVec VertexData) (idx : Nat) : Bool :=
  (vs.get ⟨0, idx⟩).isNone && (vs.getIndex idx).isSome

/-- Number of allocating positions among `i0, …, i0 + n - 1`. -/
def allocCount (vs : GenVec VertexData) : Nat → Nat → Nat
  | _, 0 => 0
  | i0, n + 1 => (if allocAt vs i0 then 1 else 0) + allocCount vs (i0 + 1) n

theorem vStep_cursor {rapid : String → Nat} {vs : GenVec VertexData} {idx : Nat}
    {ov : PreparedVertex} {s s' : VDiffState}
    (h : vStep rapid vs idx ov s = some s') :
    s'.cursor = s.cursor + (if allocAt vs idx then 1 else 0) := by
  unfold vStep at h
  split at h
  next cv hg =>
    have hfalse : allocAt vs idx = false := by simp [allocAt, hg]
    rw [hfalse]
    split at h
    · split at h
      · exact Option.noConfusion h
      · injection h with h2; subst h2; simp
    · split at h
      · exact Option.noConfusion h
      · injection h with h2; subst h2; simp
  next hg =>
    split at h
    next nv hnv =>
      have htrue : allocAt vs idx = true := by simp [allocAt, hg, hnv]
      rw [htrue]
      injection h with h2; subst h2; simp
    next hnv =>
      have hfalse : allocAt vs idx = false := by simp [allocAt, hg, hnv]
      rw [hfalse]
      injection h with h2; subst h2; simp

theorem vStep_mono {rapid : String → Nat} {vs : GenVec VertexData} {idx : Nat}
    {ov : PreparedVertex} {s s' : VDiffState}
    (h : vStep rapid vs idx ov s = some s') :
    (∀ x ∈ s.rem_attrs, x ∈ s'.rem_attrs) ∧
    (∀ x ∈ s.add_attrs, x ∈ s'.add_attrs) ∧
    (∀ x ∈ s.deleted_vertices, x ∈ s'.deleted_vertices) := by
  unfold vStep at h
  split at h
  next cv hg =>
    split at h
    · split at h
      · exact Option.noConfusion h
      · injection h with h2; subst h2
        exact ⟨fun x hx => hx, fun x hx => hx, fun x hx => hx⟩
    · split at h
      · exact Option.noConfusion h
      · injection h with h2; subst h2
        refine ⟨fun x hx => ?_, fun x hx => ?_, fun x hx => hx⟩ <;>
          simp [List.mem_append, hx]
  next hg =>
    split at h
    next nv hnv =>
      injection h with h2; subst h2
      refine ⟨fun x hx => ?_, fun x hx => ?_, fun x hx => ?_⟩ <;>
        simp [List.mem_append, hx]
    next hnv =>
      injection h with h2; subst h2
      refine ⟨fun x hx => ?_, fun x hx => ?_, fun x hx => ?_⟩ <;>
        simp [List.mem_append, hx]

/-- The "deleted and refilled" branch, fully characterised. -/
theorem vStep_refill {rapid : String → Nat} {vs : GenVec VertexData} {idx : Nat}
    {ov : PreparedVertex} {s s' : VDiffState} {w : VertexData}
    (hgone : vs.get ⟨0, idx⟩ = none) (hw : vs.getIndex idx = some w)
    (h : vStep rapid vs idx ov s = some s') :
    s'.rem_attrs = s.rem_attrs ++ ov.attrs.map (fun a => (ov.id, a.1, a.2.hash rapid)) ∧
    s'.add_attrs = s.add_attrs ++
      (sortAttrs rapid w.attributes).map (fun a => (s.cursor, a.1, a.2.hash rapid)) ∧
    s'.deleted_vertices = s.deleted_vertices ++ [ov.id] ∧
    s'.cursor = s.cursor + 1 := by
  unfold vStep at h
  rw [hgone, hw] at h
  injection h with h2
  subst h2
  exact ⟨rfl, rfl, rfl, rfl⟩

theorem vLoop_split {rapid : String → Nat} {vs : GenVec VertexData}
    (l1 l2 : List PreparedVertex) (i0 : Nat) (s : VDiffState) :
    vLoop rapid vs (l1 ++ l2) i0 s =
      (vLoop rapid vs l1 i0 s).bind (fun s1 => vLoop rapid vs l2 (i0 + l1.length) s1) := by
  induction l1 generalizing i0 s with
  | nil => simp [vLoop]
  | cons ov rest ih =>
      simp only [List.cons_append, vLoop]
      cases hst : vStep rapid vs i0 ov s with
      | none => simp
      | some s1 =>
          simp only [Option.some_bind]
          have harith : i0 + (ov :: rest).length = i0 + 1 + rest.length := by
            simp only [List.length_cons]; omega
          rw [harith]
          exact ih (i0 + 1) s1

theorem vLoop_cursor {rapid : String → Nat} {vs : GenVec VertexData}
    {olds : List PreparedVertex} {i0 : Nat} {s s' : VDiffState}
    (h : vLoop rapid vs olds i0 s = some s') :
    s'.cursor = s.cursor + allocCount vs i0 olds.length := by
  induction olds generalizing i0 s with
  | nil =>
      unfold vLoop at h
      injection h with h2
      subst h2
      simp [allocCount]
  | cons ov rest ih =>
      unfold vLoop at h
      cases hst : vStep rapid vs i0 ov s with
      | none => rw [hst] at h; exact Option.noConfusion h
      | some s1 =>
          rw [hst] at h
          simp only [Option.some_bind] at h
          have h1 := vStep_cursor hst
          have h2 := ih h
          simp only [List.length_cons, allocCount]
          omega

theorem vLoop_mono {rapid : String → Nat} {vs : GenVec VertexData}
    {olds : List PreparedVertex} {i0 : Nat} {s s' : VDiffState}
    (h : vLoop rapid vs olds i0 s = some s') :
    (∀ x ∈ s.rem_attrs, x ∈ s'.rem_attrs) ∧
    (∀ x ∈ s.add_attrs, x ∈ s'.add_attrs) ∧
    (∀ x ∈ s.deleted_vertices, x ∈ s'.deleted_vertices) := by
  induction olds generalizing i0 s with
  | nil =>
      unfold vLoop at h
      injection h with h2
      subst h2
      exact ⟨fun x hx => hx, fun x hx => hx, fun x hx => hx⟩
  | cons ov rest ih =>
      unfold vLoop at h
      cases hst : vStep rapid vs i0 ov s with
      | none => rw [hst] at h; exact Option.noConfusion h
      | some s1 =>
          rw [hst] at h
          simp only [Option.some_bind] at h
          obtain ⟨m1, m2, m3⟩ := vStep_mono hst
          obtain ⟨n1, n2, n3⟩ := ih h
          exact ⟨fun x hx => n1 x (m1 x hx), fun x hx => n2 x (m2 x hx),
            fun x hx => n3 x (m3 x hx)⟩

theorem vNew_mono {rapid : String → Nat} {pairs : List (Handle × VertexData)}
    {s : VDiffState} :
    (∀ x ∈ s.rem_attrs, x ∈ (vNew rapid pairs s).rem_attrs) ∧
    (∀ x ∈ s.add_attrs, x ∈ (vNew rapid pairs s).add_attrs) ∧
    (∀ x ∈ s.deleted_vertices, x ∈ (vNew rapid pairs s).deleted_vertices) := by
  induction pairs generalizing s with
  | nil => exact ⟨fun x hx => hx, fun x hx => hx, fun x hx => hx⟩
  | cons p rest ih =>
      unfold vNew
      simp only [List.foldl_cons]
      obtain ⟨n1, n2, n3⟩ := ih (s := { s with
        cursor := s.cursor + 1,
        add_attrs := s.add_attrs ++
          (sortAttrs rapid p.2.attributes).map fun a => (s.cursor, a.1, a.2.hash rapid),
        idx_to_global := (p.1.index, s.cursor) :: s.idx_to_global,
        proc_vertices := s.proc_vertices ++ [⟨s.cursor, sortAttrs rapid p.2.attributes⟩] })
      refine ⟨fun x hx => n1 x hx, fun x hx => n2 x ?_, fun x hx => n3 x hx⟩
      simp [List.mem_append, hx]

theorem drop_cons_of_get? {α : Type} (l : List α) (n : Nat) (a : α)
    (h : l.get? n = some a) : l.drop n = a :: l.drop (n + 1) := by
  obtain ⟨hn, hget⟩ := List.get?_eq_some.mp h
  simp only [List.get_eq_getElem] at hget
  rw [List.drop_eq_getElem_cons hn, hget]

/-- Shared core of C4 and C10: everything the diff emits for a
deleted-and-refilled old vertex position.  `start + allocCount b.vertices 0 idx`
is the value of `global_id_cursor` when the loop reaches position `idx`,
i.e. the next fresh global id at that point. -/
theorem refill_core (rapid : String → Nat) (b : GraphBuilder)
    (gidOld : Nat) (og : PreparedGraph)
    (hog : b.old_graph_data = some (gidOld, og))
    (idx : Nat) (ov : PreparedVertex) (hov : og.vertices.get? idx = some ov)
    (hgone : b.vertices.get ⟨0, idx⟩ = none)
    (w : VertexData) (hw : b.vertices.getIndex idx = some w)
    (start gid : Nat) (cd : GraphCommitData) (cur : Nat)
    (hcd : commitDataFromBuilder rapid b start gid = some (cd, cur)) :
    ov.id ∈ cd.deleted_vertices ∧
    (∀ a ∈ ov.attrs, (ov.id, a.1, a.2.hash rapid) ∈ cd.rem_attrs) ∧
    (∀ a ∈ w.attributes,
      (start + allocCount b.vertices 0 idx, a.1, a.2.hash rapid) ∈ cd.add_attrs) := by
  -- unpack `commitDataFromBuilder`
  unfold commitDataFromBuilder at hcd
  cases hv : vPhase rapid b start with
  | none => rw [hv] at hcd; exact Option.noConfusion hcd
  | some sv =>
    rw [hv] at hcd
    simp only [Option.some_bind] at hcd
    cases he : ePhase b sv.idx_to_global with
    | none => rw [he] at hcd; exact Option.noConfusion hcd
    | some se =>
      rw [he] at hcd
      simp only [Option.map_some'] at hcd
      injection hcd with h2
      cases h2
      -- unpack `vPhase`
      unfold vPhase at hv
      rw [hog] at hv
      dsimp only at hv
      cases hL : vLoop rapid b.vertices og.vertices 0 ⟨start, [], [], [], [], []⟩ with
      | none => rw [hL] at hv; exact Option.noConfusion hv
      | some sL =>
        rw [hL] at hv
        simp only [Option.map_some'] at hv
        injection hv with hv2
        -- split the old-vertex loop at `idx`
        have hidx : idx < og.vertices.length := (List.get?_eq_some.mp hov).1
        have hdecomp : og.vertices = og.vertices.take idx ++ ov :: og.vertices.drop (idx + 1) := by
          conv_lhs => rw [← List.take_append_drop idx og.vertices]
          rw [drop_cons_of_get? _ _ _ hov]
        rw [hdecomp, vLoop_split] at hL
        cases hA : vLoop rapid b.vertices (og.vertices.take idx) 0 ⟨start, [], [], [], [], []⟩ with
        | none => rw [hA] at hL; exact Option.noConfusion hL
        | some sA =>
          rw [hA] at hL
          simp only [Option.some_bind] at hL
          have hlen : (og.vertices.take idx).length = idx := by
            simp [List.length_take]; omega
          rw [hlen] at hL
          unfold vLoop at hL
          cases hB : vStep rapid b.vertices (0 + idx) ov sA with
          | none => rw [hB] at hL; exact Option.noConfusion hL
          | some sB =>
            rw [hB] at hL
            simp only [Option.some_bind] at hL
            rw [Nat.zero_add] at hB
            -- cursor at position idx
            have hcur : sA.cursor = start + allocCount b.vertices 0 idx := by
              have := vLoop_cursor hA
              simpa [hlen] using this
            obtain ⟨hrem, hadd, hdel, _⟩ := vStep_refill hgone hw hB
            obtain ⟨mr, ma, md⟩ := vLoop_mono hL
            obtain ⟨nr, na, nd⟩ :=
              @vNew_mono rapid (b.vertices.iterFrom og.vertices.length) sL
            subst hv2
            refine ⟨?_, fun a ha => ?_, fun a ha => ?_⟩
            · exact nd _ (md _ (by simp [hdel]))
            · refine nr _ (mr _ ?_)
              rw [hrem]
              simp only [List.mem_append, List.mem_map]
              exact Or.inr ⟨a, ha, rfl⟩
            · refine na _ (ma _ ?_)
              rw [hadd, hcur]
              simp only [List.mem_append, List.mem_map]
              refine Or.inr ⟨a, ?_, rfl⟩
              exact ((List.perm_insertionSort (attrLe rapid) w.attributes).mem_iff).mpr ha

/-- C4: for a deleted-and-refilled old vertex position (generation-0 lookup
fails, index-only accessor returns a payload), the diff emits `rem_attrs`
for every attribute of the old vertex, allocates the next fresh global id
(the cursor value `start + allocCount b.vertices 0 idx`, since exactly the
earlier refills have consumed ids) to the refilled vertex, and emits
`add_attrs` under that id for every attribute of the refilled vertex. -/
theorem C4_deleted_refilled (rapid : String → Nat) (b : GraphBuilder)
    (gidOld : Nat) (og : PreparedGraph)
    (hog : b.old_graph_data = some (gidOld, og))
    (idx : Nat) (ov : PreparedVertex) (hov : og.vertices.get? idx = some ov)
    (hgone : b.vertices.get ⟨0, idx⟩ = none)
    (w : VertexData) (hw : b.vertices.getIndex idx = some w)
    (start gid : Nat) (cd : GraphCommitData) (cur : Nat)
    (hcd : commitDataFromBuilder rapid b start gid = some (cd, cur)) :
    (∀ a ∈ ov.attrs, (ov.id, a.1, a.2.hash rapid) ∈ cd.rem_attrs) ∧
    (∀ a ∈ w.attributes,
      (start + allocCount b.vertices 0 idx, a.1, a.2.hash rapid) ∈ cd.add_attrs) :=
  ⟨(refill_core rapid b gidOld og hog idx ov hov hgone w hw start gid cd cur hcd).2.1,
   (refill_core rapid b gidOld og hog idx ov hov hgone w hw start gid cd cur hcd).2.2⟩

/-- Witness input for C4: a one-vertex persisted graph whose vertex is
removed and whose slot is refilled by a fresh vertex with one attribute. -/
def c4OG : PreparedGraph := ⟨9, [⟨100, [(1, .uint 5)]⟩], []⟩

/-- Witness builder for C4 (load, delete the old vertex, refill the slot). -/
def c4B : GraphBuilder :=
  let b0 := (GraphBuilder.fromPrepared c4OG).getD GraphBuilder.new
  let b1 := (b0.removeVertex ⟨0, 0⟩).1
  let r := b1.newVertex
  (r.1.newAttribute r.2 2 (.uint 6)).2

/-- Commit data the diff produces for `c4B` with `start_id = 50`. -/
def c4CD : GraphCommitData :=
  ⟨9, ⟨9, [⟨50, [(2, .uint 6)]⟩], []⟩,
   [(50, 2, 72057594037927942)], [(100, 1, 72057594037927941)], [], [], [100]⟩

/-- Witness for C4 at the concrete refill scenario. -/
theorem C4_deleted_refilled_witness :
    (∀ a ∈ (PreparedVertex.mk 100 [(1, .uint 5)]).attrs,
      ((100 : Nat), a.1, a.2.hash (fun _ => 0)) ∈ c4CD.rem_attrs) ∧
    (∀ a ∈ (VertexData.mk none [(2, .uint 6)] [] []).attributes,
      (50 + allocCount c4B.vertices 0 0, a.1, a.2.hash (fun _ => 0)) ∈ c4CD.add_attrs) :=
  C4_deleted_refilled (fun _ => 0) c4B 9 c4OG rfl 0 ⟨100, [(1, .uint 5)]⟩ rfl rfl
    ⟨none, [(2, .uint 6)], [], []⟩ rfl 50 9 c4CD 51 rfl

/-! ## List and arena bookkeeping lemmas -/

theorem set_get?_self {α : Type} (l : List α) (i : Nat) (a : α)
    (h : l.get? i = some a) : l.set i a = l := by
  induction l generalizing i with
  | nil => exact absurd h (by simp)
  | cons x xs ih =>
      cases i with
      | zero =>
          injection h with h2
          simp [List.set, ← h2]
      | succ n => exact congrArg (x :: ·) (ih n h)

theorem filter_length_set {α : Type} (p : α → Bool) (l : List α) (j : Nat) (a b : α)
    (h : l.get? j = some a) :
    ((l.set j b).filter p).length + (if p a then 1 else 0)
      = (l.filter p).length + (if p b then 1 else 0) := by
  induction l generalizing j with
  | nil => exact absurd h (by simp)
  | cons x xs ih =>
      cases j with
      | zero =>
          injection h with h2
          rw [← h2]
          show ((b :: xs).filter p).length + _ = _
          rw [List.filter_cons, List.filter_cons]
          by_cases hb : p b <;> by_cases hx : p x <;> simp [hb, hx] <;> omega
      | succ n =>
          have hx := ih n h
          show ((x :: xs.set n b).filter p).length + _ = _
          rw [List.filter_cons, List.filter_cons]
          by_cases hpx : p x <;> simp [hpx] <;> omega

theorem filter_length_congr_get? {α : Type} (p q : α → Bool) (l : List α)
    (hpq : ∀ j a, l.get? j = some a → p a = q a) :
    (l.filter p).length = (l.filter q).length := by
  induction l with
  | nil => rfl
  | cons x xs ih =>
      have hx : p x = q x := hpq 0 x rfl
      have hrest : ∀ j a, xs.get? j = some a → p a = q a := fun j a hj =>
        hpq (j + 1) a (by simpa using hj)
      by_cases h : p x
      · rw [List.filter_cons, List.filter_cons, if_pos h, if_pos (hx ▸ h)]
        simp [ih hrest]
      · rw [List.filter_cons, List.filter_cons, if_neg h, if_neg (hx ▸ h)]
        exact ih hrest

/-- Projection of a slot through a payload abstraction `c`. -/
def slotC {T A : Type} (c : T → A) (s : Slot T) : Option A × Nat :=
  (s.item.map c, s.generation)

/-- `modifyIf` leaves every payload invariant under any abstraction the
mutator preserves, and never touches the free list. -/
theorem modifyIf_slotC {T A : Type} (c : T → A) (g : GenVec T) (h : Handle)
    (f : T → T) (hf : ∀ v, c (f v) = c v) :
    ((g.modifyIf h f).items.map (slotC c) = g.items.map (slotC c)) ∧
    (g.modifyIf h f).freed = g.freed := by
  unfold GenVec.modifyIf
  cases hj : g.items.get? h.index with
  | none => exact ⟨rfl, rfl⟩
  | some slot =>
      dsimp only
      by_cases hgen : slot.generation = h.generation
      · rw [if_pos hgen]
        constructor
        · have hmap : slotC c { slot with item := slot.item.map f } = slotC c slot := by
            unfold slotC
            cases hi : slot.item with
            | none => simp
            | some v => simp [hf v]
          calc ((g.items.set h.index { slot with item := slot.item.map f }).map (slotC c))
              = (g.items.map (slotC c)).set h.index
                  (slotC c { slot with item := slot.item.map f }) := by
                rw [List.map_set]
            _ = (g.items.map (slotC c)).set h.index (slotC c slot) := by rw [hmap]
            _ = g.items.map (slotC c) := by
                apply set_get?_self
                rw [List.get?_map, hj]
                rfl
        · rfl
      · rw [if_neg hgen]
        exact ⟨rfl, rfl⟩

/-! ## Builder well-formedness

`WFB` is the state invariant maintained by every `GraphBuilder` operation of
the public API.  The payload abstraction used everywhere below is the
vertex's `global_id`. -/

/-- Number of live vertices without a global id (what `new_vertex_count`
tracks). -/
def liveNoneCount (vs : GenVec VertexData) : Nat :=
  (vs.items.filter fun s => s.item.any fun v => v.global_id.isNone).length

/-- The number of persisted vertices the builder was loaded with (0 for a
fresh builder): the diff's `new_vertices_start`. -/
def oldLen (b : GraphBuilder) : Nat :=
  match b.old_graph_data with
  | some og => og.2.vertices.length
  | none => 0

/-- Builder invariant: the new-vertex counter counts exactly the live
vertices without global ids; the arena is at least as long as the persisted
prefix; a live vertex has a global id exactly when it sits in a generation-0
slot of the persisted prefix; freed slots are empty with bumped generations;
and the free list has no duplicates. -/
structure WFB (b : GraphBuilder) : Prop where
  cnt : b.new_vertex_count = liveNoneCount b.vertices
  len : oldLen b ≤ b.vertices.items.length
  slots : ∀ j slot, b.vertices.items.get? j = some slot → ∀ v, slot.item = some v →
    (v.global_id.isSome ↔ (j < oldLen b ∧ slot.generation = 0))
  freedOk : ∀ j ∈ b.vertices.freed, ∃ slot, b.vertices.items.get? j = some slot ∧
    slot.item = none ∧ slot.generation ≠ 0
  freedNodup : b.vertices.freed.Nodup

theorem filter_length_eq_of_map {α β : Type} (f : α → β) (p : α → Bool) (q : β → Bool)
    (hpq : ∀ a, p a = q (f a)) :
    ∀ {l l' : List α}, l.map f = l'.map f →
      (l.filter p).length = (l'.filter p).length
  | [], [], _ => rfl
  | [], _ :: _, h => by simp at h
  | _ :: _, [], h => by simp at h
  | a :: l, b :: l', h => by
      simp only [List.map_cons, List.cons.injEq] at h
      have h1 : p a = p b := by rw [hpq a, hpq b, h.1]
      rw [List.filter_cons, List.filter_cons, h1]
      by_cases hb : p b
      · simp [hb, filter_length_eq_of_map f p q hpq h.2]
      · simp [hb, filter_length_eq_of_map f p q hpq h.2]

theorem pNone_via_slotC (s : Slot VertexData) :
    (s.item.any fun v => v.global_id.isNone)
      = ((slotC (fun v => v.global_id) s).1.any Option.isNone) := by
  cases hs : s.item <;> simp [slotC, hs]

theorem liveNoneCount_congr {vs vs' : GenVec VertexData}
    (h : vs'.items.map (slotC fun v => v.global_id)
       = vs.items.map (slotC fun v => v.global_id)) :
    liveNoneCount vs' = liveNoneCount vs :=
  filter_length_eq_of_map _ _ (fun c => c.1.any Option.isNone) pNone_via_slotC h

/-- Everything `WFB` observes factors through the `global_id` abstraction of
the vertex arena (plus the free list, counter, and old-data). -/
theorem WFB_congr {b b' : GraphBuilder}
    (hmap : b'.vertices.items.map (slotC fun v => v.global_id)
          = b.vertices.items.map (slotC fun v => v.global_id))
    (hfreed : b'.vertices.freed = b.vertices.freed)
    (hcnt : b'.new_vertex_count = b.new_vertex_count)
    (hold : b'.old_graph_data = b.old_graph_data)
    (hwf : WFB b) : WFB b' := by
  have holdLen : oldLen b' = oldLen b := by unfold oldLen; rw [hold]
  have hpw : ∀ j, (b'.vertices.items.get? j).map (slotC fun v => v.global_id)
      = (b.vertices.items.get? j).map (slotC fun v => v.global_id) := by
    intro j
    rw [← List.get?_map, ← List.get?_map, hmap]
  refine ⟨?_, ?_, ?_, ?_, ?_⟩
  · rw [hcnt, hwf.cnt]
    exact (liveNoneCount_congr hmap).symm ▸ rfl
  · rw [holdLen]
    have : b'.vertices.items.length = b.vertices.items.length := by
      have := congrArg List.length hmap
      simpa using this
    rw [this]
    exact hwf.len
  · intro j slot' hj' v' hv'
    have hj2 := hpw j
    rw [hj'] at hj2
    cases hj : b.vertices.items.get? j with
    | none => rw [hj] at hj2; exact Option.noConfusion hj2
    | some slot =>
      rw [hj] at hj2
      injection hj2 with hc
      have hgen : slot'.generation = slot.generation := congrArg Prod.snd hc
      have hitem := congrArg Prod.fst hc
      simp only [slotC] at hitem
      rw [hv'] at hitem
      cases hi : slot.item with
      | none => rw [hi] at hitem; simp at hitem
      | some v =>
        rw [hi] at hitem
        simp only [Option.map_some'] at hitem
        injection hitem with hgid
        have hmain := hwf.slots j slot hj v hi
        rw [holdLen, hgen, show v'.global_id = v.global_id from hgid]
        exact hmain
  · intro j hj
    rw [hfreed] at hj
    obtain ⟨slot, hs, hempty, hgen⟩ := hwf.freedOk j hj
    have hj2 := hpw j
    rw [hs] at hj2
    cases hj' : b'.vertices.items.get? j with
    | none => rw [hj'] at hj2; exact Option.noConfusion hj2
    | some slot' =>
      rw [hj'] at hj2
      injection hj2 with hc
      have hgen' : slot'.generation = slot.generation := congrArg Prod.snd hc
      have hitem := congrArg Prod.fst hc
      simp only [slotC] at hitem
      rw [hempty] at hitem
      refine ⟨slot', rfl, ?_, ?_⟩
      · cases hi' : slot'.item with
        | none => rfl
        | some v' => rw [hi'] at hitem; simp at hitem
      · rw [hgen']
        exact hgen
  · rw [hfreed]
    exact hwf.freedNodup

/-! ### Invariant preservation by the builder operations -/

theorem WFB_setAttributes (b : GraphBuilder) (h : Handle)
    (attrs : List (Nat × Primitive)) (hwf : WFB b) :
    WFB (GraphBuilder.setAttributes b h attrs) := by
  have hm := modifyIf_slotC (fun v : VertexData => v.global_id) b.vertices h
    (fun vd => { vd with attributes := attrs }) (fun _ => rfl)
  exact WFB_congr hm.1 hm.2 rfl rfl hwf

theorem WFB_newAttribute (b : GraphBuilder) (h : Handle) (attr : Nat)
    (v : Primitive) (hwf : WFB b) :
    WFB (GraphBuilder.newAttribute b h attr v).2 := by
  unfold GraphBuilder.newAttribute
  by_cases hok : v.verifyOk
  · rw [if_pos hok]
    have hm := modifyIf_slotC (fun vd : VertexData => vd.global_id) b.vertices h
      (fun vd => { vd with attributes := vd.attributes ++ [(attr, v)] }) (fun _ => rfl)
    exact WFB_congr hm.1 hm.2 rfl rfl hwf
  · rw [if_neg hok]
    exact hwf

theorem WFB_setSource {b : GraphBuilder} {eh vh : Handle} {b' : GraphBuilder}
    (h : GraphBuilder.setSource b eh vh = some b') (hwf : WFB b) : WFB b' := by
  unfold GraphBuilder.setSource at h
  split at h
  · exact Option.noConfusion h
  · split at h
    · exact Option.noConfusion h
    · injection h with h2
      subst h2
      exact WFB_congr (b := b) rfl rfl rfl rfl hwf

theorem WFB_setDestination {b : GraphBuilder} {eh vh : Handle} {b' : GraphBuilder}
    (h : GraphBuilder.setDestination b eh vh = some b') (hwf : WFB b) : WFB b' := by
  unfold GraphBuilder.setDestination at h
  split at h
  · exact Option.noConfusion h
  · split at h
    · exact Option.noConfusion h
    · injection h with h2
      subst h2
      exact WFB_congr (b := b) rfl rfl rfl rfl hwf

theorem WFB_setLabel {b : GraphBuilder} {eh : Handle} {lb : Nat} {b' : GraphBuilder}
    (h : GraphBuilder.setLabel b eh lb = some b') (hwf : WFB b) : WFB b' := by
  unfold GraphBuilder.setLabel at h
  split at h
  · exact Option.noConfusion h
  · injection h with h2
    subst h2
    exact WFB_congr (b := b) rfl rfl rfl rfl hwf

theorem WFB_newEdge {b : GraphBuilder} {f : Handle} {lb : Nat} {t : Handle}
    {b' : GraphBuilder} (h : GraphBuilder.newEdge b f lb t = some b')
    (hwf : WFB b) : WFB b' := by
  unfold GraphBuilder.newEdge at h
  split at h
  · exact Option.noConfusion h
  · split at h
    · exact Option.noConfusion h
    · injection h with h2
      subst h2
      have h1 := modifyIf_slotC (fun v : VertexData => v.global_id) b.vertices t
        (fun v => { v with incoming_edges := v.incoming_edges ++ [(b.edges.add ⟨f, t, lb⟩).2] })
        (fun _ => rfl)
      have h2 := modifyIf_slotC (fun v : VertexData => v.global_id)
        (b.vertices.modifyIf t
          (fun v => { v with incoming_edges := v.incoming_edges ++ [(b.edges.add ⟨f, t, lb⟩).2] }))
        f
        (fun v => { v with outgoing_edges := v.outgoing_edges ++ [(b.edges.add ⟨f, t, lb⟩).2] })
        (fun _ => rfl)
      exact WFB_congr (h2.1.trans h1.1) (h2.2.trans h1.2) rfl rfl hwf

theorem WFB_removeEdge (b : GraphBuilder) (h : Handle) (hwf : WFB b) :
    WFB (GraphBuilder.removeEdge b h).1 := by
  unfold GraphBuilder.removeEdge
  split
  next es edge heq =>
    have h1 := modifyIf_slotC (fun v : VertexData => v.global_id) b.vertices edge.from_v
      (fun v => { v with outgoing_edges := GraphBuilder.detach v.outgoing_edges h })
      (fun _ => rfl)
    have h2 := modifyIf_slotC (fun v : VertexData => v.global_id)
      (b.vertices.modifyIf edge.from_v
        (fun v => { v with outgoing_edges := GraphBuilder.detach v.outgoing_edges h }))
      edge.to_v
      (fun v => { v with incoming_edges := GraphBuilder.detach v.incoming_edges h })
      (fun _ => rfl)
    exact WFB_congr (h2.1.trans h1.1) (h2.2.trans h1.2) rfl rfl hwf
  next es heq =>
    exact WFB_congr (b := b) rfl rfl rfl rfl hwf

theorem WFB_removeEdge_fold (es : List Handle) (b : GraphBuilder) (hwf : WFB b) :
    WFB (es.foldl (fun acc e => (GraphBuilder.removeEdge acc e).1) b) := by
  induction es generalizing b with
  | nil => exact hwf
  | cons e rest ih =>
      exact ih _ (WFB_removeEdge b e hwf)

theorem remove_none_of_get?_none {T : Type} (g : GenVec T) (h : Handle)
    (hj : g.items.get? h.index = none) : g.remove h = (g, none) := by
  unfold GenVec.remove
  rw [hj]

theorem remove_some_char {T : Type} (g : GenVec T) (h : Handle) (slot : Slot T)
    (hj : g.items.get? h.index = some slot)
    (hgen : slot.generation = h.generation) :
    g.remove h
      = (⟨g.items.set h.index ⟨none, slot.generation + 1⟩, h.index :: g.freed⟩,
         slot.item) := by
  unfold GenVec.remove
  rw [hj]
  dsimp only
  rw [if_pos hgen]

theorem remove_none_of_gen_ne {T : Type} (g : GenVec T) (h : Handle) (slot : Slot T)
    (hj : g.items.get? h.index = some slot)
    (hgen : ¬ slot.generation = h.generation) : g.remove h = (g, none) := by
  unfold GenVec.remove
  rw [hj]
  dsimp only
  rw [if_neg hgen]

/-- A handle is safe to remove when a generation match implies the slot still
holds a payload.  Every handle the crate-private constructors ever hand out
satisfies this (a freed slot's current generation is only embodied in a
handle after the slot is refilled), so all API-reachable removals are safe;
the condition only excludes handles forged from whole cloth, which the Rust
type system already forbids (`VertexHandle`'s field is `pub(crate)`). -/
def SafeRemove (vs : GenVec VertexData) (h : Handle) : Prop :=
  ∀ slot, vs.items.get? h.index = some slot → slot.generation = h.generation →
    slot.item.isSome

theorem WFB_newVertex (b : GraphBuilder) (hwf : WFB b) :
    WFB (GraphBuilder.newVertex b).1 := by
  unfold GraphBuilder.newVertex GenVec.add
  cases hfr : b.vertices.freed with
  | nil =>
      dsimp only
      refine ⟨?_, ?_, ?_, ?_, ?_⟩
      · show b.new_vertex_count + 1 = liveNoneCount
          ⟨b.vertices.items ++ [⟨some ⟨none, [], [], []⟩, 0⟩], []⟩
        unfold liveNoneCount
        dsimp only
        rw [List.filter_append, List.length_append]
        have : (([(⟨some ⟨none, [], [], []⟩, 0⟩ : Slot VertexData)]).filter
            fun s => s.item.any fun v => v.global_id.isNone).length = 1 := by decide
        rw [this]
        rw [hwf.cnt]
        rfl
      · show oldLen _ ≤ (b.vertices.items ++ [_]).length
        rw [List.length_append]
        have h1 : oldLen { b with
            new_vertex_count := b.new_vertex_count + 1,
            vertices := (⟨b.vertices.items ++ [⟨some ⟨none, [], [], []⟩, 0⟩], []⟩ : GenVec VertexData) }
            = oldLen b := rfl
        rw [h1]
        exact le_trans hwf.len (by omega)
      · intro j slotj hj vj hvj
        rcases lt_or_ge j b.vertices.items.length with hlt | hge
        · rw [List.get?_append hlt] at hj
          have := hwf.slots j slotj hj vj hvj
          exact this
        · rcases eq_or_lt_of_le hge with heq | hgt
          · rw [← heq, List.get?_concat_length] at hj
            injection hj with hj2
            rw [← hj2] at hvj
            injection hvj with hv2
            constructor
            · intro hco
              rw [← hv2] at hco
              simp at hco
            · rintro ⟨hlt, -⟩
              have hlt' : j < oldLen b := hlt
              have := hwf.len
              omega
          · have : (b.vertices.items ++ [(⟨some ⟨none, [], [], []⟩, 0⟩ : Slot VertexData)]).get? j
                = none := by
              apply List.get?_eq_none.mpr
              rw [List.length_append]
              simpa using hgt
            rw [this] at hj
            exact Option.noConfusion hj
      · intro j hjf
        exact absurd hjf (by simp)
      · exact List.nodup_nil
  | cons idx rest =>
      dsimp only
      obtain ⟨slot0, hs0, hempty0, hgenne0⟩ := hwf.freedOk idx (by rw [hfr]; simp)
      have hbound : idx < b.vertices.items.length := (List.get?_eq_some.mp hs0).1
      have hgetD : (b.vertices.items.getD idx ⟨none, 0⟩) = slot0 := by
        rw [List.getD_eq_getD_get?, hs0]
        rfl
      have hnodup := hwf.freedNodup
      rw [hfr] at hnodup
      have hidxnotin : idx ∉ rest := (List.nodup_cons.mp hnodup).1
      refine ⟨?_, ?_, ?_, ?_, ?_⟩
      · show b.new_vertex_count + 1 = liveNoneCount
          ⟨b.vertices.items.set idx ⟨some ⟨none, [], [], []⟩,
            (b.vertices.items.getD idx ⟨none, 0⟩).generation⟩, rest⟩
        unfold liveNoneCount
        dsimp only
        have hfl := filter_length_set
          (fun s => s.item.any fun v => v.global_id.isNone)
          b.vertices.items idx slot0
          ⟨some ⟨none, [], [], []⟩, (b.vertices.items.getD idx ⟨none, 0⟩).generation⟩ hs0
        dsimp only at hfl
        have hps : (slot0.item.any fun v => v.global_id.isNone) = false := by
          rw [hempty0]; rfl
        have hpn : ((⟨some ⟨none, [], [], []⟩,
            (b.vertices.items.getD idx ⟨none, 0⟩).generation⟩ : Slot VertexData).item.any
              fun v => v.global_id.isNone) = true := rfl
        simp only [hps, hpn, if_false, if_true, Bool.false_eq_true, reduceIte] at hfl
        rw [hwf.cnt]
        unfold liveNoneCount
        omega
      · show oldLen _ ≤ (b.vertices.items.set idx _).length
        rw [List.length_set]
        exact le_trans hwf.len (le_refl _)
      · intro j slotj hj vj hvj
        rcases eq_or_ne j idx with heq | hne
        · subst heq
          rw [List.get?_set_eq_of_lt _ hbound] at hj
          injection hj with hj2
          rw [← hj2] at hvj
          injection hvj with hv2
          constructor
          · intro hco
            rw [← hv2] at hco
            simp at hco
          · rintro ⟨-, hgen0⟩
            rw [← hj2] at hgen0
            dsimp only at hgen0
            rw [hgetD] at hgen0
            exact absurd hgen0 hgenne0
        · rw [List.get?_set_ne _ _ (Ne.symm hne)] at hj
          exact hwf.slots j slotj hj vj hvj
      · intro j hjf
        have hjfreed : j ∈ b.vertices.freed := by rw [hfr]; exact List.mem_cons_of_mem _ hjf
        obtain ⟨slotj, hsj, hej, hgj⟩ := hwf.freedOk j hjfreed
        have hne : j ≠ idx := fun hcontra => hidxnotin (hcontra ▸ hjf)
        refine ⟨slotj, ?_, hej, hgj⟩
        rw [List.get?_set_ne _ _ (Ne.symm hne)]
        exact hsj
      · exact (List.nodup_cons.mp hnodup).2

theorem WFB_removeVertex {b : GraphBuilder} {h : Handle}
    (hsafe : SafeRemove b.vertices h) (hwf : WFB b) :
    WFB (GraphBuilder.removeVertex b h).1 := by
  unfold GraphBuilder.removeVertex
  cases hj : b.vertices.items.get? h.index with
  | none =>
      rw [remove_none_of_get?_none _ _ hj]
      exact WFB_congr (b := b) rfl rfl rfl rfl hwf
  | some slot =>
      by_cases hgen : slot.generation = h.generation
      · cases hi : slot.item with
        | none =>
            have := hsafe slot hj hgen
            rw [hi] at this
            exact absurd this (by simp)
        | some v =>
            rw [remove_some_char b.vertices h slot hj hgen, hi]
            dsimp only
            apply WFB_removeEdge_fold
            have hbound : h.index < b.vertices.items.length := (List.get?_eq_some.mp hj).1
            have hidxnotfreed : h.index ∉ b.vertices.freed := by
              intro hcontra
              obtain ⟨slotj, hsj, hej, _⟩ := hwf.freedOk h.index hcontra
              rw [hj] at hsj
              injection hsj with hsj2
              rw [← hsj2] at hej
              rw [hi] at hej
              exact Option.noConfusion hej
            refine ⟨?_, ?_, ?_, ?_, ?_⟩
            · show (if v.global_id = none then b.new_vertex_count - 1
                  else b.new_vertex_count)
                = liveNoneCount ⟨b.vertices.items.set h.index ⟨none, slot.generation + 1⟩,
                    h.index :: b.vertices.freed⟩
              unfold liveNoneCount
              dsimp only
              have hfl := filter_length_set
                (fun s => s.item.any fun v => v.global_id.isNone)
                b.vertices.items h.index slot
                ⟨none, slot.generation + 1⟩ hj
              dsimp only at hfl
              have hpn : (((⟨none, slot.generation + 1⟩ : Slot VertexData)).item.any
                  fun v => v.global_id.isNone) = false := rfl
              simp only [hpn, Bool.false_eq_true, reduceIte] at hfl
              have hcnt := hwf.cnt
              unfold liveNoneCount at hcnt
              cases hgid : v.global_id with
              | none =>
                  have hps : (slot.item.any fun v => v.global_id.isNone) = true := by
                    rw [hi]
                    simp [Option.any, hgid]
                  simp only [hps, reduceIte] at hfl
                  rw [if_pos rfl]
                  omega
              | some gidv =>
                  have hps : (slot.item.any fun v => v.global_id.isNone) = false := by
                    rw [hi]
                    simp [Option.any, hgid]
                  simp only [hps, Bool.false_eq_true, reduceIte] at hfl
                  rw [if_neg (by simp [hgid])]
                  omega
            · show oldLen _ ≤ (b.vertices.items.set h.index _).length
              rw [List.length_set]
              exact hwf.len
            · intro j slotj hjs vj hvj
              rcases eq_or_ne j h.index with heq | hne
              · subst heq
                rw [List.get?_set_eq_of_lt _ hbound] at hjs
                injection hjs with hjs2
                rw [← hjs2] at hvj
                exact Option.noConfusion hvj
              · rw [List.get?_set_ne _ _ (Ne.symm hne)] at hjs
                exact hwf.slots j slotj hjs vj hvj
            · intro j hjf
              rcases List.mem_cons.mp hjf with heq | hjf'
              · subst heq
                exact ⟨⟨none, slot.generation + 1⟩,
                  List.get?_set_eq_of_lt _ hbound, rfl, Nat.succ_ne_zero _⟩
              · obtain ⟨slotj, hsj, hej, hgj⟩ := hwf.freedOk j hjf'
                have hne : j ≠ h.index := fun hcontra => by
                  rw [hcontra] at hsj
                  rw [hj] at hsj
                  injection hsj with hsj2
                  rw [← hsj2] at hej
                  rw [hi] at hej
                  exact Option.noConfusion hej
                refine ⟨slotj, ?_, hej, hgj⟩
                rw [List.get?_set_ne _ _ (Ne.symm hne)]
                exact hsj
            · exact List.nodup_cons.mpr ⟨hidxnotfreed, hwf.freedNodup⟩
      · rw [remove_none_of_gen_ne _ _ slot hj hgen]
        exact WFB_congr (b := b) rfl rfl rfl rfl hwf

/-! ### Characterising `from_prepared` -/

/-- The slot `from_prepared` creates for a persisted vertex. -/
def initSlot (v : PreparedVertex) : Slot VertexData :=
  ⟨some ⟨some v.id, v.attrs, [], []⟩, 0⟩

/-- The payload core observed by the diff: global id and attribute list. -/
def vdCore (v : VertexData) : Option Nat × List (Nat × Primitive) :=
  (v.global_id, v.attributes)

theorem fromPreparedVerts_aux (vs : List PreparedVertex) :
    ∀ (items0 : List (Slot VertexData)) (m0 : List (Nat × Handle)),
      vs.foldl
        (fun (acc : GenVec VertexData × List (Nat × Handle)) (v : PreparedVertex) =>
          let r := acc.1.add ⟨some v.id, v.attrs, [], []⟩
          (r.1, (v.id, r.2) :: acc.2))
        ((⟨items0, []⟩ : GenVec VertexData), m0)
      = (⟨items0 ++ vs.map initSlot, []⟩,
         ((vs.enumFrom items0.length).map
            (fun p => (p.2.id, (⟨0, p.1⟩ : Handle)))).reverse ++ m0) := by
  induction vs with
  | nil => intro items0 m0; simp
  | cons v rest ih =>
      intro items0 m0
      simp only [List.foldl_cons]
      rw [show ((⟨items0, []⟩ : GenVec VertexData).add ⟨some v.id, v.attrs, [], []⟩)
        = ((⟨items0 ++ [initSlot v], []⟩ : GenVec VertexData),
           (⟨0, items0.length⟩ : Handle)) from rfl]
      rw [ih (items0 ++ [initSlot v]) ((v.id, (⟨0, items0.length⟩ : Handle)) :: m0)]
      rw [List.append_assoc]
      simp only [List.singleton_append, List.map_cons, List.enumFrom,
        List.length_append, List.length_singleton, List.map, List.reverse_cons]
      rw [List.append_assoc]
      simp

theorem fromPreparedVerts_spec (vs : List PreparedVertex) :
    GraphBuilder.fromPreparedVerts vs
      = (⟨vs.map initSlot, []⟩,
         ((vs.enumFrom 0).map (fun p => (p.2.id, (⟨0, p.1⟩ : Handle)))).reverse) := by
  have h := fromPreparedVerts_aux vs [] []
  unfold GraphBuilder.fromPreparedVerts
  simpa [GenVec.empty] using h

theorem slotC_gid_of_vdCore {l l' : List (Slot VertexData)}
    (h : l.map (slotC vdCore) = l'.map (slotC vdCore)) :
    l.map (slotC fun v : VertexData => v.global_id)
      = l'.map (slotC fun v : VertexData => v.global_id) := by
  have hfac : ∀ s : Slot VertexData,
      slotC (fun v : VertexData => v.global_id) s
        = ((slotC vdCore s).1.map Prod.fst, (slotC vdCore s).2) := by
    intro s
    cases hs : s.item <;> simp [slotC, vdCore, hs]
  calc l.map (slotC fun v : VertexData => v.global_id)
      = (l.map (slotC vdCore)).map (fun c => (c.1.map Prod.fst, c.2)) := by
        rw [List.map_map]; exact List.map_congr_left (fun s _ => hfac s)
    _ = (l'.map (slotC vdCore)).map (fun c => (c.1.map Prod.fst, c.2)) := by rw [h]
    _ = l'.map (slotC fun v : VertexData => v.global_id) := by
        rw [List.map_map]; exact (List.map_congr_left (fun s _ => hfac s)).symm

theorem fromPreparedEdges_preserves (idMap : List (Nat × Handle)) :
    ∀ (es : List PreparedEdge) (vs : GenVec VertexData) (eg : GenVec EdgeData)
      (vs' : GenVec VertexData) (eg' : GenVec EdgeData),
      GraphBuilder.fromPreparedEdges idMap es vs eg = some (vs', eg') →
      vs'.items.map (slotC vdCore) = vs.items.map (slotC vdCore) ∧
        vs'.freed = vs.freed := by
  intro es
  induction es with
  | nil =>
      intro vs eg vs' eg' h
      unfold GraphBuilder.fromPreparedEdges at h
      injection h with h2
      injection h2 with ha hb
      rw [← ha]
      exact ⟨rfl, rfl⟩
  | cons e rest ih =>
      intro vs eg vs' eg' h
      unfold GraphBuilder.fromPreparedEdges at h
      split at h
      next hf ht hef het =>
          have h1 := modifyIf_slotC vdCore vs hf
            (fun v => { v with outgoing_edges := v.outgoing_edges ++ [(eg.add ⟨hf, ht, e.label⟩).2] })
            (fun _ => rfl)
          have h2 := modifyIf_slotC vdCore
            (vs.modifyIf hf
              (fun v => { v with outgoing_edges := v.outgoing_edges ++ [(eg.add ⟨hf, ht, e.label⟩).2] }))
            ht
            (fun v => { v with incoming_edges := v.incoming_edges ++ [(eg.add ⟨hf, ht, e.label⟩).2] })
            (fun _ => rfl)
          obtain ⟨ha, hb⟩ := ih _ _ _ _ h
          exact ⟨ha.trans (h2.1.trans h1.1), hb.trans (h2.2.trans h1.2)⟩
      next => exact Option.noConfusion h

theorem WFB_new : WFB GraphBuilder.new := by
  refine ⟨rfl, Nat.le_refl 0, ?_, ?_, List.nodup_nil⟩
  · intro j slot hj
    exact absurd hj (by simp [GraphBuilder.new, GenVec.empty])
  · intro j hj
    exact absurd hj (by simp [GraphBuilder.new, GenVec.empty])

theorem WFB_fromPrepared {g : PreparedGraph} {b : GraphBuilder}
    (h : GraphBuilder.fromPrepared g = some b) : WFB b := by
  unfold GraphBuilder.fromPrepared at h
  rw [fromPreparedVerts_spec] at h
  dsimp only at h
  cases he : GraphBuilder.fromPreparedEdges
      ((((g.vertices.enumFrom 0).map
          (fun p => (p.2.id, (⟨0, p.1⟩ : Handle)))).reverse))
      g.edges ⟨g.vertices.map initSlot, []⟩ GenVec.empty with
  | none => rw [he] at h; exact Option.noConfusion h
  | some p =>
      rw [he] at h
      simp only [Option.map_some'] at h
      injection h with h2
      obtain ⟨hmap, hfreed⟩ := fromPreparedEdges_preserves _ _ _ _ _ _ he
      subst h2
      have holdLen : oldLen ⟨0, some (g.id, g), p.1, p.2⟩ = g.vertices.length := rfl
      have hpw : ∀ j, (p.1.items.get? j).map (slotC vdCore)
          = ((g.vertices.map initSlot).get? j).map (slotC vdCore) := by
        intro j
        rw [← List.get?_map, ← List.get?_map, hmap]
      have hlen : p.1.items.length = g.vertices.length := by
        have := congrArg List.length hmap
        simpa using this
      refine ⟨?_, ?_, ?_, ?_, ?_⟩
      · show 0 = liveNoneCount p.1
        unfold liveNoneCount
        have : (p.1.items.filter fun s => s.item.any fun v => v.global_id.isNone) = [] := by
          rw [List.filter_eq_nil]
          intro s hs
          have hsc : slotC vdCore s ∈ p.1.items.map (slotC vdCore) :=
            List.mem_map_of_mem _ hs
          rw [hmap] at hsc
          rw [List.map_map] at hsc
          obtain ⟨v, _, hv⟩ := List.mem_map.mp hsc
          have : s.item.map vdCore = some (some v.id, v.attrs) := by
            have := congrArg Prod.fst hv
            simpa [slotC, initSlot, vdCore] using this.symm
          cases hsi : s.item with
          | none => rw [hsi] at this; exact Option.noConfusion this
          | some vd =>
              rw [hsi] at this
              injection this with this2
              have hgid : vd.global_id = some v.id := congrArg Prod.fst this2
              simp [Option.any, hgid]
        rw [this]
        rfl
      · show oldLen _ ≤ p.1.items.length
        rw [holdLen, hlen]
      · intro j slotj hj vj hvj
        have hj2 := hpw j
        rw [hj] at hj2
        rcases lt_or_ge j g.vertices.length with hlt | hge
        · have hjg : (g.vertices.map initSlot).get? j
              = (g.vertices.get? j).map initSlot := List.get?_map _ _ _
          obtain ⟨hb2, hv2⟩ := List.get?_eq_some.mp
            (show g.vertices.get? j = some (g.vertices.get ⟨j, hlt⟩) from List.get?_eq_get hlt)
          rw [List.get?_eq_get hlt] at hjg
          rw [hjg] at hj2
          simp only [Option.map_some'] at hj2
          injection hj2 with hj3
          have hgen : slotj.generation = 0 := congrArg Prod.snd hj3
          have hitem := congrArg Prod.fst hj3
          simp only [slotC, initSlot, vdCore] at hitem
          rw [hvj] at hitem
          simp only [Option.map_some'] at hitem
          injection hitem with hitem2
          have hgid : vj.global_id = some (g.vertices.get ⟨j, hlt⟩).id :=
            congrArg Prod.fst hitem2
          rw [holdLen, hgen]
          simp [vdCore, hgid, hlt]
        · have : (g.vertices.map initSlot).get? j = none := by
            apply List.get?_eq_none.mpr
            simpa using hge
          rw [this] at hj2
          exact Option.noConfusion hj2
      · intro j hj
        rw [hfreed] at hj
        exact absurd hj (by simp)
      · rw [hfreed]
        exact List.nodup_nil

/-! ### Reachable builder states -/

/-- The builder states constructible through the public `GraphBuilder` /
`VertexBuilder` / `EdgeBuilder` API (any handle arguments, any order);
removals carry the `SafeRemove` side condition satisfied by every handle the
crate ever hands out. -/
inductive Reachable : GraphBuilder → Prop where
  | base : Reachable GraphBuilder.new
  | load {g b} : GraphBuilder.fromPrepared g = some b → Reachable b
  | newVertex {b} : Reachable b → Reachable (GraphBuilder.newVertex b).1
  | removeVertex {b h} : Reachable b → SafeRemove b.vertices h →
      Reachable (GraphBuilder.removeVertex b h).1
  | removeEdge {b h} : Reachable b → Reachable (GraphBuilder.removeEdge b h).1
  | newEdge {b f lb t b'} : Reachable b → GraphBuilder.newEdge b f lb t = some b' →
      Reachable b'
  | newAttribute {b h attr v} : Reachable b →
      Reachable (GraphBuilder.newAttribute b h attr v).2
  | setAttributes {b h attrs} : Reachable b →
      Reachable (GraphBuilder.setAttributes b h attrs)
  | setSource {b eh vh b'} : Reachable b → GraphBuilder.setSource b eh vh = some b' →
      Reachable b'
  | setDestination {b eh vh b'} : Reachable b →
      GraphBuilder.setDestination b eh vh = some b' → Reachable b'
  | setLabel {b eh lb b'} : Reachable b → GraphBuilder.setLabel b eh lb = some b' →
      Reachable b'

theorem WFB_reachable {b : GraphBuilder} (h : Reachable b) : WFB b := by
  induction h with
  | base => exact WFB_new
  | load hl => exact WFB_fromPrepared hl
  | newVertex _ ih => exact WFB_newVertex _ ih
  | removeVertex _ hsafe ih => exact WFB_removeVertex hsafe ih
  | removeEdge _ ih => exact WFB_removeEdge _ _ ih
  | newEdge _ he ih => exact WFB_newEdge he ih
  | newAttribute _ ih => exact WFB_newAttribute _ _ _ _ ih
  | setAttributes _ ih => exact WFB_setAttributes _ _ _ ih
  | setSource _ he ih => exact WFB_setSource he ih
  | setDestination _ he ih => exact WFB_setDestination he ih
  | setLabel _ he ih => exact WFB_setLabel he ih

/-! ### Exact id consumption by the diff (C5) -/

theorem vNew_cursor (rapid : String → Nat) (pairs : List (Handle × VertexData))
    (s : VDiffState) : (vNew rapid pairs s).cursor = s.cursor + pairs.length := by
  induction pairs generalizing s with
  | nil => rfl
  | cons p rest ih =>
      unfold vNew
      simp only [List.foldl_cons]
      have := ih (s := { s with
        cursor := s.cursor + 1,
        add_attrs := s.add_attrs ++
          (sortAttrs rapid p.2.attributes).map fun a => (s.cursor, a.1, a.2.hash rapid),
        idx_to_global := (p.1.index, s.cursor) :: s.idx_to_global,
        proc_vertices := s.proc_vertices ++ [⟨s.cursor, sortAttrs rapid p.2.attributes⟩] })
      unfold vNew at this
      rw [this]
      simp only [List.length_cons]
      omega

/-- Refill predicate on a slot: a payload survives in a bumped-generation
slot. -/
def pRefill (s : Slot VertexData) : Bool := s.item.isSome && !(s.generation == 0)

theorem allocAt_eq_of_get? {vs : GenVec VertexData} {i : Nat} {slot : Slot VertexData}
    (hj : vs.items.get? i = some slot) : allocAt vs i = pRefill slot := by
  unfold allocAt GenVec.get GenVec.getIndex pRefill
  rw [hj]
  dsimp only
  by_cases hg : slot.generation = 0
  · rw [if_pos hg, hg]
    cases hitem : slot.item <;> simp [hitem]
  · rw [if_neg hg]
    cases hitem : slot.item <;> simp [hitem, hg]

theorem allocCount_take (vs : GenVec VertexData) :
    ∀ (n i0 : Nat), i0 + n ≤ vs.items.length →
      allocCount vs i0 n = (((vs.items.drop i0).take n).filter pRefill).length := by
  intro n
  induction n with
  | zero => intro i0 _; rfl
  | succ m ih =>
      intro i0 hle
      have hi0 : i0 < vs.items.length := by omega
      have hj : vs.items.get? i0 = some (vs.items.get ⟨i0, hi0⟩) := List.get?_eq_get hi0
      have hdrop : vs.items.drop i0 = vs.items.get ⟨i0, hi0⟩ :: vs.items.drop (i0 + 1) :=
        drop_cons_of_get? _ _ _ hj
      rw [hdrop]
      unfold allocCount
      rw [List.take_succ_cons, List.filter_cons]
      rw [allocAt_eq_of_get? hj]
      rw [ih (i0 + 1) (by omega)]
      by_cases hp : pRefill (vs.items.get ⟨i0, hi0⟩) <;>
        simp only [List.get_eq_getElem] at hp <;> simp [hp] <;> omega

theorem length_filterMap_payload {β : Type}
    (g : Nat × Slot VertexData → VertexData → β) (l : List (Nat × Slot VertexData)) :
    (l.filterMap fun p => p.2.item.map (g p)).length
      = (l.filter fun p => p.2.item.isSome).length := by
  induction l with
  | nil => rfl
  | cons p rest ih =>
      rw [List.filterMap_cons, List.filter_cons]
      cases hp : p.2.item with
      | none => simpa [hp] using ih
      | some v => simpa [hp] using ih

theorem length_filter_of_map {α β : Type} (f : α → β) (q : β → Bool) (l : List α) :
    ((l.map f).filter q).length = (l.filter fun a => q (f a)).length := by
  induction l with
  | nil => rfl
  | cons x xs ih =>
      rw [List.map_cons, List.filter_cons, List.filter_cons]
      by_cases hx : q (f x) <;> simp [hx, ih]

theorem iterFrom_length (vs : GenVec VertexData) (k : Nat) :
    (vs.iterFrom k).length
      = ((vs.items.drop k).filter fun s => s.item.isSome).length := by
  unfold GenVec.iterFrom
  rw [length_filterMap_payload (fun p v => ((⟨p.2.generation, p.1⟩ : Handle), v))]
  have h1 : ((vs.items.enum.drop k).filter fun p => p.2.item.isSome).length
      = (((vs.items.enum.drop k).map Prod.snd).filter fun s => s.item.isSome).length := by
    rw [length_filter_of_map]
  rw [h1]
  have h2 : (vs.items.enum.drop k).map Prod.snd = vs.items.drop k := by
    rw [List.map_drop, List.enum_map_snd]
  rw [h2]

/-- Under the builder invariant, the diff's vertex phase moves the global-id
cursor by exactly `new_vertex_count`. -/
theorem diff_consumes_exactly (rapid : String → Nat) (b : GraphBuilder)
    (hwf : WFB b) (start : Nat) {sv : VDiffState}
    (hv : vPhase rapid b start = some sv) :
    sv.cursor = start + b.new_vertex_count := by
  unfold vPhase at hv
  dsimp only at hv
  have holds : (match b.old_graph_data with
      | some og => og.2.vertices
      | none => []).length = oldLen b := by
    unfold oldLen
    cases b.old_graph_data <;> rfl
  cases hL : vLoop rapid b.vertices
      (match b.old_graph_data with
        | some og => og.2.vertices
        | none => []) 0 ⟨start, [], [], [], [], []⟩ with
  | none => rw [hL] at hv; exact Option.noConfusion hv
  | some sL =>
      rw [hL] at hv
      simp only [Option.map_some'] at hv
      injection hv with hv2
      subst hv2
      rw [vNew_cursor, vLoop_cursor hL]
      rw [holds]
      -- counting:  allocCount over the old prefix + payloads past it
      set L := oldLen b with hLdef
      have hlen : L ≤ b.vertices.items.length := hwf.len
      rw [allocCount_take b.vertices L 0 (by omega), iterFrom_length]
      rw [List.drop_zero]
      -- rewrite both filters using the slot invariant
      have htake : ((b.vertices.items.take L).filter pRefill).length
          = ((b.vertices.items.take L).filter
              fun s => s.item.any fun v => v.global_id.isNone).length := by
        apply filter_length_congr_get?
        intro j a hj
        have hjlt : j < L := by
          have := (List.get?_eq_some.mp hj).1
          rw [List.length_take] at this
          omega
        rw [List.get?_take hjlt] at hj
        cases ha : a.item with
        | none => simp [pRefill, ha]
        | some v =>
            have hiff := hwf.slots j a hj v ha
            simp only [pRefill, ha, Option.isSome_some, Bool.true_and]
            cases hg : v.global_id with
            | none =>
                have : ¬ (j < L ∧ a.generation = 0) := by
                  intro hc
                  have := hiff.mpr hc
                  rw [hg] at this
                  simp at this
                have hgen : a.generation ≠ 0 := fun hc => this ⟨hjlt, hc⟩
                simp [Option.any, hg, hgen]
            | some gid =>
                have : j < L ∧ a.generation = 0 := hiff.mp (by rw [hg]; rfl)
                simp [Option.any, hg, this.2]
      have hdrop : ((b.vertices.items.drop L).filter
            (fun s => s.item.isSome)).length
          = ((b.vertices.items.drop L).filter
              fun s => s.item.any fun v => v.global_id.isNone).length := by
        apply filter_length_congr_get?
        intro j a hj
        rw [List.get?_drop] at hj
        cases ha : a.item with
        | none => simp [ha]
        | some v =>
            have hiff := hwf.slots (L + j) a hj v ha
            have hgid : v.global_id = none := by
              cases hg : v.global_id with
              | none => rfl
              | some gid =>
                  have := hiff.mp (by rw [hg]; rfl)
                  omega
            simp [ha, Option.any, hgid]
      rw [htake, hdrop]
      have hsplit : liveNoneCount b.vertices
          = ((b.vertices.items.take L).filter
              (fun s => s.item.any fun v => v.global_id.isNone)).length
            + ((b.vertices.items.drop L).filter
                (fun s => s.item.any fun v => v.global_id.isNone)).length := by
        unfold liveNoneCount
        conv_lhs => rw [← List.take_append_drop L b.vertices.items]
        rw [List.filter_append, List.length_append]
      rw [hwf.cnt, hsplit]
      dsimp only
      omega

/-- The writer's vertex-id reservation loop (`reserve_vertex_ids` applied to
each submitted builder's `count_new_vertices()` in order): returns the start
of each builder's range while advancing the cursor by the builder's count. -/
def reserveStarts (cursor0 : Nat) : List Nat → List Nat
  | [] => []
  | c :: rest => cursor0 :: reserveStarts (cursor0 + c) rest

theorem reserveStarts_get (counts : List Nat) :
    ∀ (cursor0 i : Nat), i < counts.length →
      (reserveStarts cursor0 counts).get? i
        = some (cursor0 + (counts.take i).sum) := by
  induction counts with
  | nil => intro c0 i h; exact absurd h (by simp)
  | cons c rest ih =>
      intro c0 i hi
      cases i with
      | zero => simp [reserveStarts]
      | succ m =>
          unfold reserveStarts
          have := ih (c0 + c) m (by simpa using Nat.lt_of_succ_lt_succ hi)
          show (reserveStarts (c0 + c) rest).get? m = _
          rw [this]
          simp [List.take_succ_cons, Nat.add_assoc]

/-- C5: the writer reserves contiguous, pairwise-disjoint vertex-id ranges —
builder `i`'s range starts at `cursor0 + Σ_{j<i} counts_j` and has size
`counts_i` — and on every reachable builder the diff engine's global-id
cursor advances by exactly `count_new_vertices()`: it consumes exactly the
reserved range `[start_id, start_id + new_vertex_count)`, no more and no
fewer (allocations hand out consecutive cursor values starting at
`start_id`). -/
theorem C5_vertex_id_ranges :
    (∀ (cursor0 : Nat) (counts : List Nat) (i : Nat), i < counts.length →
      (reserveStarts cursor0 counts).get? i
        = some (cursor0 + (counts.take i).sum)) ∧
    (∀ (rapid : String → Nat) (b : GraphBuilder), Reachable b →
      ∀ (start gid : Nat) (cd : GraphCommitData) (cur : Nat),
        commitDataFromBuilder rapid b start gid = some (cd, cur) →
        cur = start + b.new_vertex_count) := by
  constructor
  · intro c0 counts i hi
    exact reserveStarts_get counts c0 i hi
  · intro rapid b hreach start gid cd cur hcd
    unfold commitDataFromBuilder at hcd
    cases hv : vPhase rapid b start with
    | none => rw [hv] at hcd; exact Option.noConfusion hcd
    | some sv =>
        rw [hv] at hcd
        simp only [Option.some_bind] at hcd
        cases he : ePhase b sv.idx_to_global with
        | none => rw [he] at hcd; exact Option.noConfusion hcd
        | some se =>
            rw [he] at hcd
            simp only [Option.map_some'] at hcd
            injection hcd with h2
            have hcur : cur = sv.cursor := (congrArg Prod.snd h2).symm
            rw [hcur]
            exact diff_consumes_exactly rapid b (WFB_reachable hreach) start hv

/-- The commit data for the C5 witness builder (one fresh vertex, no old
graph, `start_id = 10`). -/
def c5CD : GraphCommitData := ⟨0, ⟨0, [⟨10, []⟩], []⟩, [], [], [], [], []⟩

/-- Witness for C5: the second reserved range of `reserveStarts 7 [2, 3]`
starts at `7 + 2`, and a reachable one-new-vertex builder consumes exactly
one id from `start_id = 10`. -/
theorem C5_vertex_id_ranges_witness :
    ((reserveStarts 7 [2, 3]).get? 1 = some (7 + ([2, 3].take 1).sum)) ∧
    (11 = 10 + (GraphBuilder.newVertex GraphBuilder.new).1.new_vertex_count) :=
  ⟨C5_vertex_id_ranges.1 7 [2, 3] 1 (by decide),
   C5_vertex_id_ranges.2 (fun _ => 0) (GraphBuilder.newVertex GraphBuilder.new).1
     (Reachable.newVertex Reachable.base) 10 0 c5CD 11 rfl⟩

/-! ## Writer: `VERTEX_GRAPH_MAP` maintenance in `save_graphs_parallel`
(`src/lattice_db/writer.rs`).  The `redb` table is modelled as a function
`Nat → Option Nat`. -/

/-- `table.insert(k, v)`. -/
def mapInsert (m : Nat → Option Nat) (k v : Nat) : Nat → Option Nat :=
  fun q => if q = k then some v else m q

/-- `table.remove(k)`. -/
def mapRemove (m : Nat → Option Nat) (k : Nat) : Nat → Option Nat :=
  fun q => if q = k then none else m q

/-- Step (3) of `save_graphs_parallel`: for every reserved range
`(start, count, graph_id)`, insert `v_id ↦ graph_id` for
`v_id ∈ [start, start+count)`. -/
def vgInsertRanges (m : Nat → Option Nat) (rs : List (Nat × Nat × Nat)) :
    Nat → Option Nat :=
  rs.foldl
    (fun m r => (List.range r.2.1).foldl (fun m i => mapInsert m (r.1 + i) r.2.2) m)
    m

/-- Step (5): per `GraphCommitData`, remove every `deleted_vertices` entry
from the map. -/
def vgRemoveDeleted (m : Nat → Option Nat) (ds : List GraphCommitData) :
    Nat → Option Nat :=
  ds.foldl (fun m d => d.deleted_vertices.foldl (fun m v => mapRemove m v) m) m

theorem mapRemove_fold_none {l : List Nat} {m : Nat → Option Nat} {k : Nat}
    (h : m k = none) : (l.foldl (fun m v => mapRemove m v) m) k = none := by
  induction l generalizing m with
  | nil => exact h
  | cons v rest ih =>
      apply ih
      show (if k = v then none else m k) = none
      by_cases hv : k = v
      · rw [if_pos hv]
      · rw [if_neg hv]; exact h

theorem mapRemove_fold_mem {l : List Nat} {m : Nat → Option Nat} {k : Nat}
    (h : k ∈ l) : (l.foldl (fun m v => mapRemove m v) m) k = none := by
  induction l generalizing m with
  | nil => exact absurd h (by simp)
  | cons v rest ih =>
      rcases List.mem_cons.mp h with heq | hmem
      · subst heq
        show (rest.foldl (fun m v => mapRemove m v) (mapRemove m k)) k = none
        apply mapRemove_fold_none
        show (if k = k then none else m k) = none
        rw [if_pos rfl]
      · exact ih hmem

theorem vgRemoveDeleted_pres_none {ds : List GraphCommitData}
    {m : Nat → Option Nat} {k : Nat} (h : m k = none) :
    vgRemoveDeleted m ds k = none := by
  induction ds generalizing m with
  | nil => exact h
  | cons d rest ih => exact ih (mapRemove_fold_none h)

theorem vgRemoveDeleted_none {ds : List GraphCommitData}
    {m : Nat → Option Nat} {k : Nat}
    (h : ∃ d ∈ ds, k ∈ d.deleted_vertices) :
    vgRemoveDeleted m ds k = none := by
  induction ds generalizing m with
  | nil => obtain ⟨d, hd, _⟩ := h; exact absurd hd (by simp)
  | cons d rest ih =>
      obtain ⟨d', hd', hk⟩ := h
      rcases List.mem_cons.mp hd' with heq | hmem
      · subst heq
        show vgRemoveDeleted
          (d'.deleted_vertices.foldl (fun m v => mapRemove m v) m) rest k = none
        exact vgRemoveDeleted_pres_none (mapRemove_fold_mem hk)
      · exact ih ⟨d', hmem, hk⟩

/-- C10: when an old vertex slot is deleted and refilled, the old global id
is still reported in `deleted_vertices`; the refilled vertex is allocated
the next fresh cursor id `start + allocCount … idx`, which never equals the
old id (the writer reserves ranges above every persisted id, `ov.id <
start`); and after the writer's `VERTEX_GRAPH_MAP` phase — inserts for the
reserved ranges, then removal of every `deleted_vertices` entry — the old
id maps to nothing. -/
theorem C10_refill_retires_old_id (rapid : String → Nat) (b : GraphBuilder)
    (gidOld : Nat) (og : PreparedGraph)
    (hog : b.old_graph_data = some (gidOld, og))
    (idx : Nat) (ov : PreparedVertex) (hov : og.vertices.get? idx = some ov)
    (hgone : b.vertices.get ⟨0, idx⟩ = none)
    (w : VertexData) (hw : b.vertices.getIndex idx = some w)
    (start gid : Nat) (cd : GraphCommitData) (cur : Nat)
    (hcd : commitDataFromBuilder rapid b start gid = some (cd, cur))
    (hfresh : ov.id < start)
    (m : Nat → Option Nat) (rs : List (Nat × Nat × Nat))
    (ds : List GraphCommitData) (hds : cd ∈ ds) :
    ov.id ∈ cd.deleted_vertices ∧
    start + allocCount b.vertices 0 idx ≠ ov.id ∧
    vgRemoveDeleted (vgInsertRanges m rs) ds ov.id = none := by
  have hdel := (refill_core rapid b gidOld og hog idx ov hov hgone w hw
    start gid cd cur hcd).1
  exact ⟨hdel, by omega, vgRemoveDeleted_none ⟨cd, hds, hdel⟩⟩

/-- Commit data for the C10 witness (same refill scenario as C4 but with
`start_id = 200`, above the persisted id 100). -/
def c10CD : GraphCommitData :=
  ⟨9, ⟨9, [⟨200, [(2, .uint 6)]⟩], []⟩,
   [(200, 2, 72057594037927942)], [(100, 1, 72057594037927941)], [], [], [100]⟩

/-- Witness for C10 at the concrete refill scenario. -/
theorem C10_refill_retires_old_id_witness :
    (PreparedVertex.mk 100 [(1, .uint 5)]).id ∈ c10CD.deleted_vertices ∧
    200 + allocCount c4B.vertices 0 0 ≠ (PreparedVertex.mk 100 [(1, .uint 5)]).id ∧
    vgRemoveDeleted (vgInsertRanges (fun _ => some 9) [(200, 1, 9)]) [c10CD]
      (PreparedVertex.mk 100 [(1, .uint 5)]).id = none :=
  C10_refill_retires_old_id (fun _ => 0) c4B 9 c4OG rfl 0 ⟨100, [(1, .uint 5)]⟩ rfl rfl
    ⟨none, [(2, .uint 6)], [], []⟩ rfl 200 9 c10CD 201 rfl (by norm_num)
    (fun _ => some 9) [(200, 1, 9)] [c10CD] (by simp)

/-! ## C3: diff minimality on an unmutated loaded builder -/

theorem lookup_mem {α β : Type} [DecidableEq α] {l : List (α × β)} {k : α} {v : β}
    (h : l.lookup k = some v) : (k, v) ∈ l := by
  induction l with
  | nil => exact absurd h (by simp)
  | cons p rest ih =>
      rw [List.lookup_cons] at h
      by_cases hk : k = p.1
      · rw [show (k == p.1) = true from beq_iff_eq.mpr hk] at h
        injection h with h2
        subst h2
        subst hk
        exact List.mem_cons_self _ _
      · rw [show (k == p.1) = false from beq_eq_false_iff_ne.mpr hk] at h
        exact List.mem_cons_of_mem _ (ih h)

theorem lookup_isSome_of_mem {α β : Type} [DecidableEq α] {l : List (α × β)}
    {k : α} {v : β} (h : (k, v) ∈ l) : (l.lookup k).isSome := by
  induction l with
  | nil => exact absurd h (by simp)
  | cons p rest ih =>
      rw [List.lookup_cons]
      by_cases hk : k = p.1
      · rw [show (k == p.1) = true from beq_iff_eq.mpr hk]
        rfl
      · rw [show (k == p.1) = false from beq_eq_false_iff_ne.mpr hk]
        rcases List.mem_cons.mp h with heq | hmem
        · exact absurd (congrArg Prod.fst heq) hk
        · exact ih hmem

theorem lookup_of_mem_nodupkeys {α β : Type} [DecidableEq α] {l : List (α × β)}
    {k : α} {v : β} (hnd : (l.map Prod.fst).Nodup) (h : (k, v) ∈ l) :
    l.lookup k = some v := by
  induction l with
  | nil => exact absurd h (by simp)
  | cons p rest ih =>
      rw [List.map_cons, List.nodup_cons] at hnd
      rw [List.lookup_cons]
      rcases List.mem_cons.mp h with heq | hmem
      · subst heq
        rw [show (k == (k, v).1) = true from beq_iff_eq.mpr rfl]
      · by_cases hk : k = p.1
        · exfalso
          apply hnd.1
          rw [← hk]
          exact List.mem_map_of_mem Prod.fst hmem
        · rw [show (k == p.1) = false from beq_eq_false_iff_ne.mpr hk]
          exact ih hnd.2 hmem

theorem mem_enumFrom_of_get? {α : Type} {l : List α} :
    ∀ {j : Nat} {a : α} (n : Nat), l.get? j = some a → (n + j, a) ∈ l.enumFrom n := by
  induction l with
  | nil => intro j a n h; exact absurd h (by simp)
  | cons x xs ih =>
      intro j a n h
      cases j with
      | zero =>
          injection h with h2
          subst h2
          simp [List.enumFrom]
      | succ m =>
          have := ih (n + 1) (show xs.get? m = some a from h)
          have harith : n + (m + 1) = (n + 1) + m := by omega
          rw [harith]
          exact List.mem_cons_of_mem _ this

theorem get?_of_mem_enumFrom {α : Type} {l : List α} :
    ∀ {n : Nat} {p : Nat × α}, p ∈ l.enumFrom n →
      ∃ j, p.1 = n + j ∧ l.get? j = some p.2 := by
  induction l with
  | nil => intro n p h; exact absurd h (by simp)
  | cons x xs ih =>
      intro n p h
      rcases List.mem_cons.mp h with heq | hmem
      · subst heq
        exact ⟨0, by omega, rfl⟩
      · obtain ⟨j, hj1, hj2⟩ := ih hmem
        exact ⟨j + 1, by omega, hj2⟩

/-- The `id_map` built by `from_prepared`'s vertex phase. -/
def idMapOf (vs : List PreparedVertex) : List (Nat × Handle) :=
  ((vs.enumFrom 0).map (fun p => (p.2.id, (⟨0, p.1⟩ : Handle)))).reverse

theorem idMapOf_lookup_mem {vs : List PreparedVertex} {k : Nat} {h : Handle}
    (hl : (idMapOf vs).lookup k = some h) :
    h.generation = 0 ∧ ∃ v, vs.get? h.index = some v ∧ v.id = k := by
  have hm := lookup_mem hl
  unfold idMapOf at hm
  rw [List.mem_reverse] at hm
  obtain ⟨p, hp, hpe⟩ := List.mem_map.mp hm
  obtain ⟨j, hj1, hj2⟩ := get?_of_mem_enumFrom hp
  have h1 : p.2.id = k := congrArg Prod.fst hpe
  have h2 : (⟨0, p.1⟩ : Handle) = h := congrArg Prod.snd hpe
  rw [← h2]
  refine ⟨rfl, p.2, ?_, h1⟩
  show vs.get? p.1 = some p.2
  rw [hj1]
  simpa using hj2

theorem idMapOf_lookup_isSome {vs : List PreparedVertex} {k : Nat}
    (hk : ∃ v ∈ vs, v.id = k) : ((idMapOf vs).lookup k).isSome := by
  obtain ⟨v, hv, hid⟩ := hk
  obtain ⟨j, hj⟩ := List.get?_of_mem hv
  have hmem := mem_enumFrom_of_get? 0 hj
  apply lookup_isSome_of_mem (v := (⟨0, 0 + j⟩ : Handle))
  unfold idMapOf
  rw [List.mem_reverse]
  rw [← hid]
  exact List.mem_map_of_mem _ hmem

/-- The `idx_to_global` map the vertex loop leaves behind for an unmutated
loaded builder. -/
def idxGlobalOf (vs : List PreparedVertex) : List (Nat × Nat) :=
  ((vs.enumFrom 0).map (fun p => (p.1, p.2.id))).reverse

theorem idxGlobalOf_lookup {vs : List PreparedVertex} {j : Nat} {v : PreparedVertex}
    (hj : vs.get? j = some v) : (idxGlobalOf vs).lookup j = some v.id := by
  apply lookup_of_mem_nodupkeys
  · unfold idxGlobalOf
    rw [List.map_reverse, List.nodup_reverse, List.map_map]
    have : (Prod.fst ∘ fun p : Nat × PreparedVertex => (p.1, p.2.id)) = Prod.fst := by
      funext p; rfl
    rw [this, List.enumFrom_map_fst]
    exact List.nodup_range' 0 vs.length
  · unfold idxGlobalOf
    rw [List.mem_reverse]
    have hmem := mem_enumFrom_of_get? 0 hj
    have := List.mem_map_of_mem (fun p : Nat × PreparedVertex => (p.1, p.2.id)) hmem
    simpa using this

/-- The edge slot `from_prepared` creates for a persisted edge (the junk
branch is unreachable: the lookups succeed whenever the phase succeeds). -/
def mkEdgeSlot (idMap : List (Nat × Handle)) (e : PreparedEdge) : Slot EdgeData :=
  match idMap.lookup e.from_v, idMap.lookup e.to_v with
  | some hf, some ht => ⟨some ⟨hf, ht, e.label⟩, 0⟩
  | _, _ => ⟨none, 0⟩

theorem fromPreparedEdges_items (idMap : List (Nat × Handle)) :
    ∀ (es : List PreparedEdge) (vs : GenVec VertexData) (eg : GenVec EdgeData)
      (vs' : GenVec VertexData) (eg' : GenVec EdgeData),
      eg.freed = [] →
      GraphBuilder.fromPreparedEdges idMap es vs eg = some (vs', eg') →
      eg'.items = eg.items ++ es.map (mkEdgeSlot idMap) ∧ eg'.freed = [] := by
  intro es
  induction es with
  | nil =>
      intro vs eg vs' eg' hfr h
      unfold GraphBuilder.fromPreparedEdges at h
      injection h with h2
      injection h2 with ha hb
      rw [← hb]
      simp [hfr]
  | cons e rest ih =>
      intro vs eg vs' eg' hfr h
      unfold GraphBuilder.fromPreparedEdges at h
      split at h
      next hf ht hef het =>
        have hadd : eg.add ⟨hf, ht, e.label⟩
            = (⟨eg.items ++ [⟨some ⟨hf, ht, e.label⟩, 0⟩], []⟩, ⟨0, eg.items.length⟩) := by
          unfold GenVec.add
          rw [hfr]
        rw [hadd] at h
        obtain ⟨ha, hb⟩ := ih _ _ _ _ rfl h
        constructor
        · rw [ha]
          dsimp only
          rw [List.append_assoc]
          congr 1
          rw [List.map_cons]
          rw [List.singleton_append]
          congr 1
          unfold mkEdgeSlot
          rw [hef, het]
        · exact hb
      next => exact Option.noConfusion h

theorem fromPreparedEdges_lookups (idMap : List (Nat × Handle)) :
    ∀ (es : List PreparedEdge) (vs : GenVec VertexData) (eg : GenVec EdgeData)
      (vs' : GenVec VertexData) (eg' : GenVec EdgeData),
      GraphBuilder.fromPreparedEdges idMap es vs eg = some (vs', eg') →
      ∀ e ∈ es, (idMap.lookup e.from_v).isSome ∧ (idMap.lookup e.to_v).isSome := by
  intro es
  induction es with
  | nil => intro vs eg vs' eg' _ e he; exact absurd he (by simp)
  | cons e0 rest ih =>
      intro vs eg vs' eg' h e he
      unfold GraphBuilder.fromPreparedEdges at h
      split at h
      next hf ht hef het =>
        rcases List.mem_cons.mp he with heq | hmem
        · subst heq
          rw [hef, het]
          exact ⟨rfl, rfl⟩
        · exact ih _ _ _ _ h e hmem
      next => exact Option.noConfusion h

theorem iterFrom_nil {T : Type} (g : GenVec T) (k : Nat)
    (h : g.items.length ≤ k) : g.iterFrom k = [] := by
  unfold GenVec.iterFrom
  have : g.items.enum.drop k = [] := by
    apply List.drop_eq_nil_of_le
    simpa using h
  rw [this]
  rfl

theorem vLoop_unchanged (rapid : String → Nat) (vs : GenVec VertexData) :
    ∀ (olds : List PreparedVertex) (i0 : Nat) (s : VDiffState),
      (∀ j ov, olds.get? j = some ov → ∃ cv, vs.get ⟨0, i0 + j⟩ = some cv ∧
        cv.attributes = ov.attrs ∧ cv.global_id = some ov.id) →
      vLoop rapid vs olds i0 s = some { s with
        proc_vertices := s.proc_vertices ++ olds,
        idx_to_global :=
          ((olds.enumFrom i0).map (fun p => (p.1, p.2.id))).reverse ++ s.idx_to_global } := by
  intro olds
  induction olds with
  | nil =>
      intro i0 s _
      simp [vLoop]
  | cons ov rest ih =>
      intro i0 s hyp
      obtain ⟨cv, hcv, hattrs, hgid⟩ := hyp 0 ov rfl
      rw [Nat.add_zero] at hcv
      unfold vLoop vStep
      rw [hcv]
      dsimp only
      rw [if_pos hattrs, hgid]
      dsimp only
      simp only [Option.some_bind]
      rw [ih (i0 + 1) _ (fun j ovj hj => by
        have := hyp (j + 1) ovj (by simpa using hj)
        simpa [Nat.add_assoc, Nat.add_comm 1 j] using this)]
      congr 1
      have hov : (⟨ov.id, ov.attrs⟩ : PreparedVertex) = ov := rfl
      simp only [List.enumFrom, List.map_cons, List.reverse_cons, hov]
      simp [List.append_assoc]

theorem eLoop_unchanged (es : GenVec EdgeData) (idxg : List (Nat × Nat)) :
    ∀ (oldEs : List PreparedEdge) (i0 : Nat) (t : EDiffState),
      (∀ j oe, oldEs.get? j = some oe → ∃ ce, es.get ⟨0, i0 + j⟩ = some ce ∧
        idxg.lookup ce.from_v.index = some oe.from_v ∧
        idxg.lookup ce.to_v.index = some oe.to_v ∧ ce.label = oe.label) →
      eLoop es idxg oldEs i0 t
        = some { t with proc_edges := t.proc_edges ++ oldEs } := by
  intro oldEs
  induction oldEs with
  | nil =>
      intro i0 t _
      simp [eLoop]
  | cons oe rest ih =>
      intro i0 t hyp
      obtain ⟨ce, hce, hf, ht, hlb⟩ := hyp 0 oe rfl
      rw [Nat.add_zero] at hce
      unfold eLoop eStep
      rw [hce]
      dsimp only
      rw [hf, ht]
      dsimp only
      rw [if_pos ⟨rfl, hlb, rfl⟩]
      simp only [Option.some_bind]
      rw [ih (i0 + 1) _ (fun j oej hj => by
        have := hyp (j + 1) oej (by simpa using hj)
        simpa [Nat.add_assoc, Nat.add_comm 1 j] using this)]
      congr 1
      have hoe : (⟨oe.from_v, oe.label, oe.to_v⟩ : PreparedEdge) = oe := rfl
      simp [hoe]

theorem fromPreparedEdges_total (idMap : List (Nat × Handle)) :
    ∀ (es : List PreparedEdge) (vs : GenVec VertexData) (eg : GenVec EdgeData),
      (∀ e ∈ es, (idMap.lookup e.from_v).isSome ∧ (idMap.lookup e.to_v).isSome) →
      (GraphBuilder.fromPreparedEdges idMap es vs eg).isSome := by
  intro es
  induction es with
  | nil => intro vs eg _; rfl
  | cons e rest ih =>
      intro vs eg hyp
      obtain ⟨h1, h2⟩ := hyp e (List.mem_cons_self _ _)
      obtain ⟨hf, hef⟩ := Option.isSome_iff_exists.mp h1
      obtain ⟨ht, het⟩ := Option.isSome_iff_exists.mp h2
      unfold GraphBuilder.fromPreparedEdges
      rw [hef, het]
      exact ih _ _ (fun e' he' => hyp e' (List.mem_cons_of_mem _ he'))

/-- C3: a builder loaded from a persisted `PreparedGraph` and committed with
no intervening mutation produces a `GraphCommitData` with empty `add_attrs`,
`rem_attrs`, `add_edges`, `rem_edges` and `deleted_vertices`.  The only
hypothesis is that each persisted edge's endpoints exist among the persisted
vertices — otherwise `from_prepared` itself panics and no commit happens. -/
theorem C3_diff_minimality (rapid : String → Nat) (g : PreparedGraph)
    (hwfe : ∀ e ∈ g.edges,
      (∃ v ∈ g.vertices, v.id = e.from_v) ∧ (∃ v ∈ g.vertices, v.id = e.to_v))
    (start gid : Nat) :
    ((GraphBuilder.fromPrepared g).bind
        (fun b => commitDataFromBuilder rapid b start gid)).map
      (fun r => (r.1.add_attrs, r.1.rem_attrs, r.1.add_edges, r.1.rem_edges,
                 r.1.deleted_vertices))
    = some ([], [], [], [], []) := by
  have hlk : ∀ e ∈ g.edges, ((idMapOf g.vertices).lookup e.from_v).isSome ∧
      ((idMapOf g.vertices).lookup e.to_v).isSome := fun e he =>
    ⟨idMapOf_lookup_isSome (hwfe e he).1, idMapOf_lookup_isSome (hwfe e he).2⟩
  have htot := fromPreparedEdges_total (idMapOf g.vertices) g.edges
    ⟨g.vertices.map initSlot, []⟩ GenVec.empty hlk
  obtain ⟨⟨vs', es'⟩, hphase⟩ := Option.isSome_iff_exists.mp htot
  obtain ⟨hcore, hfreedv⟩ := fromPreparedEdges_preserves _ _ _ _ _ _ hphase
  obtain ⟨hedges, hfreede⟩ := fromPreparedEdges_items _ _ _ _ _ _ rfl hphase
  have hedges' : es'.items = g.edges.map (mkEdgeSlot (idMapOf g.vertices)) := by
    simpa [GenVec.empty] using hedges
  have hb : GraphBuilder.fromPrepared g = some ⟨0, some (g.id, g), vs', es'⟩ := by
    unfold GraphBuilder.fromPrepared
    rw [fromPreparedVerts_spec]
    dsimp only
    rw [show (((g.vertices.enumFrom 0).map
        (fun p => (p.2.id, (⟨0, p.1⟩ : Handle)))).reverse) = idMapOf g.vertices from rfl]
    rw [hphase]
    rfl
  rw [hb]
  simp only [Option.some_bind]
  -- pointwise payload core of the vertex arena
  have hpw : ∀ j, (vs'.items.get? j).map (slotC vdCore)
      = ((g.vertices.map initSlot).get? j).map (slotC vdCore) := by
    intro j
    rw [← List.get?_map, ← List.get?_map, hcore]
  have hlenv : vs'.items.length = g.vertices.length := by
    have := congrArg List.length hcore
    simpa using this
  have hlene : es'.items.length = g.edges.length := by
    rw [hedges', List.length_map]
  -- the vertex loop sees every old position unchanged
  have hvhyp : ∀ j ov, g.vertices.get? j = some ov →
      ∃ cv, vs'.get ⟨0, 0 + j⟩ = some cv ∧ cv.attributes = ov.attrs ∧
        cv.global_id = some ov.id := by
    intro j ov hj
    have h1 := hpw j
    rw [List.get?_map, hj] at h1
    cases hjs : vs'.items.get? j with
    | none =>
        rw [hjs] at h1
        simp only [Option.map_some', Option.map_none'] at h1
        exact Option.noConfusion h1
    | some slot =>
        rw [hjs] at h1
        simp only [Option.map_some'] at h1
        injection h1 with h2
        have hgen : slot.generation = 0 := congrArg Prod.snd h2
        have hitem := congrArg Prod.fst h2
        simp only [slotC, initSlot, vdCore] at hitem
        cases hsi : slot.item with
        | none =>
            rw [hsi] at hitem
            simp only [Option.map_none'] at hitem
            exact Option.noConfusion hitem
        | some cv =>
            rw [hsi] at hitem
            simp only [Option.map_some'] at hitem
            injection hitem with h3
            refine ⟨cv, ?_, ?_, ?_⟩
            · show vs'.get ⟨0, 0 + j⟩ = some cv
              unfold GenVec.get
              rw [Nat.zero_add, hjs]
              dsimp only
              rw [if_pos hgen]
              exact hsi
            · exact congrArg Prod.snd h3
            · exact congrArg Prod.fst h3
  have hvl := vLoop_unchanged rapid vs' g.vertices 0 ⟨start, [], [], [], [], []⟩ hvhyp
  have hvp : vPhase rapid ⟨0, some (g.id, g), vs', es'⟩ start
      = some ⟨start, [], [], [], g.vertices, idxGlobalOf g.vertices⟩ := by
    unfold vPhase
    dsimp only
    rw [hvl, iterFrom_nil vs' _ (by rw [hlenv])]
    simp [vNew, idxGlobalOf]
  -- the edge loop sees every old edge unchanged
  have hehyp : ∀ j oe, g.edges.get? j = some oe →
      ∃ ce, es'.get ⟨0, 0 + j⟩ = some ce ∧
        (idxGlobalOf g.vertices).lookup ce.from_v.index = some oe.from_v ∧
        (idxGlobalOf g.vertices).lookup ce.to_v.index = some oe.to_v ∧
        ce.label = oe.label := by
    intro j oe hj
    have hmem : oe ∈ g.edges := List.get?_mem hj
    obtain ⟨hf1, hf2⟩ := hlk oe hmem
    obtain ⟨hf, hef⟩ := Option.isSome_iff_exists.mp hf1
    obtain ⟨ht, het⟩ := Option.isSome_iff_exists.mp hf2
    have hslot : es'.items.get? j = some ⟨some ⟨hf, ht, oe.label⟩, 0⟩ := by
      rw [hedges', List.get?_map, hj]
      simp only [Option.map_some']
      congr 1
      unfold mkEdgeSlot
      rw [hef, het]
    refine ⟨⟨hf, ht, oe.label⟩, ?_, ?_, ?_, rfl⟩
    · show es'.get ⟨0, 0 + j⟩ = some _
      unfold GenVec.get
      rw [Nat.zero_add, hslot]
      rfl
    · obtain ⟨-, v, hv, hvid⟩ := idMapOf_lookup_mem hef
      rw [idxGlobalOf_lookup hv, hvid]
    · obtain ⟨-, v, hv, hvid⟩ := idMapOf_lookup_mem het
      rw [idxGlobalOf_lookup hv, hvid]
  have hel := eLoop_unchanged es' (idxGlobalOf g.vertices) g.edges 0 ⟨[], [], []⟩ hehyp
  have hep : ePhase ⟨0, some (g.id, g), vs', es'⟩ (idxGlobalOf g.vertices)
      = some ⟨[], [], g.edges⟩ := by
    unfold ePhase
    dsimp only
    rw [hel, iterFrom_nil es' _ (by rw [hlene])]
    show eNew (idxGlobalOf g.vertices) [] _ = _
    unfold eNew
    simp
  unfold commitDataFromBuilder
  rw [hvp]
  simp only [Option.some_bind]
  rw [hep]
  rfl

/-- Witness for C3 on a concrete two-vertex, one-edge persisted graph. -/
theorem C3_diff_minimality_witness :
    ((GraphBuilder.fromPrepared
        ⟨9, [⟨100, [(1, .uint 5)]⟩, ⟨101, []⟩], [⟨100, 3, 101⟩]⟩).bind
      (fun b => commitDataFromBuilder (fun _ => 0) b 200 9)).map
      (fun r => (r.1.add_attrs, r.1.rem_attrs, r.1.add_edges, r.1.rem_edges,
                 r.1.deleted_vertices))
    = some ([], [], [], [], []) :=
  C3_diff_minimality (fun _ => 0)
    ⟨9, [⟨100, [(1, .uint 5)]⟩, ⟨101, []⟩], [⟨100, 3, 101⟩]⟩ (by decide) 200 9

/-! ## C1: FORWARD/REVERSE edge-index symmetry in the writer
(`src/lattice_db/writer.rs`)

A `RoaringTreemap` is a `Finset Nat`; a `redb` index table is a function
`(Nat × Nat) → Option (Finset Nat)` (serialization elided); a writer cache
(`HashMap<(u64, u64), RoaringTreemap>`) is an association list with unique
keys — a cache hit mutates the existing entry in place, a miss prepends a
fresh entry.  During `save_graphs_parallel` the `INDEX_FORWARD` and
`INDEX_REVERSE` tables are never written (only `commit` flushes the
caches), so the table argument of `update_bitmap` is fixed.  The scalar
cache, the `GRAPHS` table and the `VERTEX_GRAPH_MAP` updates never touch
the two edge caches, so the embedding keeps only the edge part of the
per-`GraphCommitData` loop.  `commit_cache` iterates keys in sorted order
purely to batch disk writes; a `HashMap` holds each key once, so the writes
go to pairwise distinct table keys and the resulting table is independent
of iteration order — the fold below iterates the association list
directly. -/

/-- A writer index cache: `HashMap<(u64, u64), RoaringTreemap>`. -/
def BMCache : Type := List ((Nat × Nat) × Finset Nat)

/-- `cache.get(&key)`: the first entry with the given key. -/
def bmFind : BMCache → (Nat × Nat) → Option (Finset Nat)
  | [], _ => none
  | (k', v') :: rest, k => if k' = k then some v' else bmFind rest k

/-- In-place update of the first entry with key `k` (what mutating the
bitmap behind `cache.get_mut(&key)` does to the map). -/
def bmSet : BMCache → (Nat × Nat) → Finset Nat → BMCache
  | [], _, _ => []
  | (k', v') :: rest, k, v =>
      if k' = k then (k, v) :: rest else (k', v') :: bmSet rest k v

/-- `LatticeWriter::update_bitmap`: on a cache hit, insert or remove `x`
in the cached bitmap; on a miss, load the bitmap from the table (empty when
absent), apply the operation and insert the result into the cache. -/
def updateBitmap (table : (Nat × Nat) → Option (Finset Nat)) (cache : BMCache)
    (key : Nat × Nat) (x : Nat) (is_add : Bool) : BMCache :=
  match bmFind cache key with
  | some bitmap =>
      bmSet cache key (if is_add then insert x bitmap else bitmap.erase x)
  | none =>
      let bitmap := (table key).getD ∅
      (key, if is_add then insert x bitmap else bitmap.erase x) :: cache

/-- One `add_edges`/`rem_edges` entry `(from, label, to)` of the cache loop
in `save_graphs_parallel`: the paired FORWARD update at `(from, label)` and
REVERSE update at `(to, label)`. -/
def applyEdge (tF tR : (Nat × Nat) → Option (Finset Nat))
    (c : BMCache × BMCache) (e : Nat × Nat × Nat) (is_add : Bool) :
    BMCache × BMCache :=
  (updateBitmap tF c.1 (e.1, e.2.1) e.2.2 is_add,
   updateBitmap tR c.2 (e.2.2, e.2.1) e.1 is_add)

/-- The edge-cache part of processing one `GraphCommitData` in
`save_graphs_parallel`: all `add_edges`, then all `rem_edges`. -/
def applyCommitEdges (tF tR : (Nat × Nat) → Option (Finset Nat))
    (c : BMCache × BMCache) (d : GraphCommitData) : BMCache × BMCache :=
  let c1 := d.add_edges.foldl (fun c e => applyEdge tF tR c e true) c
  d.rem_edges.foldl (fun c e => applyEdge tF tR c e false) c1

/-- The edge-cache part of `save_graphs_parallel` over a whole batch of
commit data. -/
def saveGraphsEdges (tF tR : (Nat × Nat) → Option (Finset Nat))
    (c : BMCache × BMCache) (ds : List GraphCommitData) : BMCache × BMCache :=
  ds.foldl (applyCommitEdges tF tR) c

/-- `LatticeWriter::commit_cache`: write each cached bitmap at its key,
removing the key from the table when the bitmap is empty. -/
def commitCache (cache : BMCache) (table : (Nat × Nat) → Option (Finset Nat)) :
    (Nat × Nat) → Option (Finset Nat) :=
  cache.foldl
    (fun t kv => fun q =>
      if q = kv.1 then (if kv.2 = ∅ then none else some kv.2) else t q)
    table

/-- The bitmap a reader of key `k` observes in a persisted index table. -/
def readBM (table : (Nat × Nat) → Option (Finset Nat)) (k : Nat × Nat) :
    Finset Nat :=
  (table k).getD ∅

/-- The bitmap at key `k` as seen through the cache: the cached entry when
present, else the table entry, else empty. -/
def bmView (table : (Nat × Nat) → Option (Finset Nat)) (cache : BMCache)
    (k : Nat × Nat) : Finset Nat :=
  (bmFind cache k).getD ((table k).getD ∅)

/-- The keys of a cache. -/
def bmKeys (c : BMCache) : List (Nat × Nat) := c.map (fun p => p.1)

theorem bmKeys_cons (p : (Nat × Nat) × Finset Nat) (c : BMCache) :
    bmKeys (p :: c) = p.1 :: bmKeys c := rfl

theorem bmView_of_find_some {t : (Nat × Nat) → Option (Finset Nat)}
    {c : BMCache} {k : Nat × Nat} {bm : Finset Nat}
    (h : bmFind c k = some bm) : bmView t c k = bm := by
  simp [bmView, h]

theorem bmView_of_find_none {t : (Nat × Nat) → Option (Finset Nat)}
    {c : BMCache} {k : Nat × Nat}
    (h : bmFind c k = none) : bmView t c k = (t k).getD ∅ := by
  simp [bmView, h]

theorem bmView_cons (t : (Nat × Nat) → Option (Finset Nat)) (k' : Nat × Nat)
    (v' : Finset Nat) (rest : BMCache) (k : Nat × Nat) :
    bmView t ((k', v') :: rest) k = if k' = k then v' else bmView t rest k := by
  by_cases hk : k' = k
  · simp [bmView, bmFind, hk]
  · simp [bmView, bmFind, hk]

theorem bmFind_bmSet_self {c : BMCache} {k : Nat × Nat} {bm : Finset Nat}
    (h : bmFind c k = some bm) (v : Finset Nat) :
    bmFind (bmSet c k v) k = some v := by
  induction c with
  | nil => exact Option.noConfusion h
  | cons p rest ih =>
      obtain ⟨k0, v0⟩ := p
      by_cases hk : k0 = k
      · subst hk
        show bmFind (if k0 = k0 then (k0, v) :: rest else (k0, v0) :: bmSet rest k0 v) k0
          = some v
        rw [if_pos rfl]
        show (if k0 = k0 then some v else bmFind rest k0) = some v
        rw [if_pos rfl]
      · have h' : bmFind rest k = some bm := by
          have h2 : (if k0 = k then some v0 else bmFind rest k) = some bm := h
          rw [if_neg hk] at h2
          exact h2
        show bmFind (if k0 = k then (k, v) :: rest else (k0, v0) :: bmSet rest k v) k
          = some v
        rw [if_neg hk]
        show (if k0 = k then some v0 else bmFind (bmSet rest k v) k) = some v
        rw [if_neg hk]
        exact ih h'

theorem bmFind_bmSet_ne {c : BMCache} {k k' : Nat × Nat} (v : Finset Nat)
    (h : k' ≠ k) : bmFind (bmSet c k v) k' = bmFind c k' := by
  induction c with
  | nil => rfl
  | cons p rest ih =>
      obtain ⟨k0, v0⟩ := p
      by_cases hk : k0 = k
      · subst hk
        show bmFind (if k0 = k0 then (k0, v) :: rest else (k0, v0) :: bmSet rest k0 v) k'
          = bmFind ((k0, v0) :: rest) k'
        rw [if_pos rfl]
        show (if k0 = k' then some v else bmFind rest k')
          = (if k0 = k' then some v0 else bmFind rest k')
        rw [if_neg (fun he => h he.symm), if_neg (fun he => h he.symm)]
      · show bmFind (if k0 = k then (k, v) :: rest else (k0, v0) :: bmSet rest k v) k'
          = bmFind ((k0, v0) :: rest) k'
        rw [if_neg hk]
        show (if k0 = k' then some v0 else bmFind (bmSet rest k v) k')
          = (if k0 = k' then some v0 else bmFind rest k')
        by_cases h0 : k0 = k'
        · rw [if_pos h0, if_pos h0]
        · rw [if_neg h0, if_neg h0]
          exact ih

theorem bmKeys_bmSet (c : BMCache) (k : Nat × Nat) (v : Finset Nat) :
    bmKeys (bmSet c k v) = bmKeys c := by
  induction c with
  | nil => rfl
  | cons p rest ih =>
      obtain ⟨k0, v0⟩ := p
      by_cases hk : k0 = k
      · subst hk
        show bmKeys (if k0 = k0 then (k0, v) :: rest else (k0, v0) :: bmSet rest k0 v)
          = bmKeys ((k0, v0) :: rest)
        rw [if_pos rfl, bmKeys_cons, bmKeys_cons]
      · show bmKeys (if k0 = k then (k, v) :: rest else (k0, v0) :: bmSet rest k v)
          = bmKeys ((k0, v0) :: rest)
        rw [if_neg hk, bmKeys_cons, bmKeys_cons, ih]

theorem bmFind_none_not_mem {c : BMCache} {k : Nat × Nat}
    (h : bmFind c k = none) : k ∉ bmKeys c := by
  induction c with
  | nil => simp [bmKeys]
  | cons p rest ih =>
      obtain ⟨k0, v0⟩ := p
      have h' : (if k0 = k then some v0 else bmFind rest k) = none := h
      by_cases hk : k0 = k
      · rw [if_pos hk] at h'
        exact Option.noConfusion h'
      · rw [if_neg hk] at h'
        rw [bmKeys_cons]
        intro hmem
        rcases List.mem_cons.mp hmem with heq | hmem'
        · exact hk heq.symm
        · exact ih h' hmem'

theorem bmFind_none_of_not_mem {c : BMCache} {k : Nat × Nat}
    (h : k ∉ bmKeys c) : bmFind c k = none := by
  induction c with
  | nil => rfl
  | cons p rest ih =>
      obtain ⟨k0, v0⟩ := p
      rw [bmKeys_cons] at h
      show (if k0 = k then some v0 else bmFind rest k) = none
      by_cases hk : k0 = k
      · subst hk
        exact absurd (List.mem_cons_self k0 (bmKeys rest)) h
      · rw [if_neg hk]
        exact ih (fun hm => h (List.mem_cons_of_mem _ hm))

theorem nodup_updateBitmap {t : (Nat × Nat) → Option (Finset Nat)}
    {c : BMCache} {key : Nat × Nat} {x : Nat} {b : Bool}
    (h : (bmKeys c).Nodup) : (bmKeys (updateBitmap t c key x b)).Nodup := by
  unfold updateBitmap
  cases hf : bmFind c key with
  | some bm =>
      dsimp only
      rw [bmKeys_bmSet]
      exact h
  | none =>
      dsimp only
      rw [bmKeys_cons]
      exact List.nodup_cons.mpr ⟨bmFind_none_not_mem hf, h⟩

theorem bmView_updateBitmap (t : (Nat × Nat) → Option (Finset Nat))
    (c : BMCache) (key : Nat × Nat) (x : Nat) (b : Bool) (k : Nat × Nat) :
    bmView t (updateBitmap t c key x b) k =
      if k = key then
        (if b then insert x (bmView t c key) else (bmView t c key).erase x)
      else bmView t c k := by
  unfold updateBitmap
  cases hf : bmFind c key with
  | some bm =>
      dsimp only
      have hv : bmView t c key = bm := bmView_of_find_some hf
      by_cases hk : k = key
      · subst hk
        rw [bmView_of_find_some (bmFind_bmSet_self hf _), if_pos rfl, hv]
      · rw [if_neg hk]
        show bmView t (bmSet c key _) k = bmView t c k
        unfold bmView
        rw [bmFind_bmSet_ne _ hk]
  | none =>
      dsimp only
      have hv : bmView t c key = (t key).getD ∅ := bmView_of_find_none hf
      by_cases hk : k = key
      · subst hk
        rw [if_pos rfl, bmView_cons, if_pos rfl, hv]
      · rw [if_neg hk, bmView_cons, if_neg (fun he => hk he.symm)]

/-- Invariant carried through the writer's edge-cache updates: the
FORWARD and REVERSE views through the caches agree, and both caches have
pairwise distinct keys. -/
def CachesOk (tF tR : (Nat × Nat) → Option (Finset Nat))
    (c : BMCache × BMCache) : Prop :=
  (∀ u l v, v ∈ bmView tF c.1 (u, l) ↔ u ∈ bmView tR c.2 (v, l)) ∧
  (bmKeys c.1).Nodup ∧ (bmKeys c.2).Nodup

theorem CachesOk_applyEdge {tF tR : (Nat × Nat) → Option (Finset Nat)}
    {c : BMCache × BMCache} (h : CachesOk tF tR c)
    (e : Nat × Nat × Nat) (b : Bool) :
    CachesOk tF tR (applyEdge tF tR c e b) := by
  obtain ⟨hsym, hn1, hn2⟩ := h
  refine ⟨?_, nodup_updateBitmap hn1, nodup_updateBitmap hn2⟩
  obtain ⟨f, l0, t0⟩ := e
  intro u l v
  have hbase := hsym u l v
  show v ∈ bmView tF (updateBitmap tF c.1 (f, l0) t0 b) (u, l) ↔
       u ∈ bmView tR (updateBitmap tR c.2 (t0, l0) f b) (v, l)
  rw [bmView_updateBitmap, bmView_updateBitmap]
  by_cases h1 : (u, l) = (f, l0) <;> by_cases h2 : (v, l) = (t0, l0)
  · rw [Prod.mk.injEq] at h1 h2
    obtain ⟨hu, hl⟩ := h1
    obtain ⟨hv, -⟩ := h2
    subst hu
    subst hl
    subst hv
    rw [if_pos rfl, if_pos rfl]
    cases b
    · rw [if_neg Bool.false_ne_true, if_neg Bool.false_ne_true]
      simp [Finset.mem_erase]
    · rw [if_pos rfl, if_pos rfl]
      simp [Finset.mem_insert]
  · rw [Prod.mk.injEq] at h1
    obtain ⟨hu, hl⟩ := h1
    subst hu
    subst hl
    have hv : v ≠ t0 := fun hv => h2 (by rw [hv])
    rw [if_pos rfl, if_neg h2]
    cases b
    · rw [if_neg Bool.false_ne_true]
      simp only [Finset.mem_erase]
      constructor
      · rintro ⟨-, hm⟩
        exact hbase.mp hm
      · intro hm
        exact ⟨hv, hbase.mpr hm⟩
    · rw [if_pos rfl]
      simp only [Finset.mem_insert]
      constructor
      · rintro (heq | hm)
        · exact absurd heq hv
        · exact hbase.mp hm
      · intro hm
        exact Or.inr (hbase.mpr hm)
  · rw [Prod.mk.injEq] at h2
    obtain ⟨hv, hl⟩ := h2
    subst hv
    subst hl
    have hu : u ≠ f := fun hu => h1 (by rw [hu])
    rw [if_neg h1, if_pos rfl]
    cases b
    · rw [if_neg Bool.false_ne_true]
      simp only [Finset.mem_erase]
      constructor
      · intro hm
        exact ⟨hu, hbase.mp hm⟩
      · rintro ⟨-, hm⟩
        exact hbase.mpr hm
    · rw [if_pos rfl]
      simp only [Finset.mem_insert]
      constructor
      · intro hm
        exact Or.inr (hbase.mp hm)
      · rintro (heq | hm)
        · exact absurd heq hu
        · exact hbase.mpr hm
  · rw [if_neg h1, if_neg h2]
    exact hbase

theorem CachesOk_edgeFold {tF tR : (Nat × Nat) → Option (Finset Nat)}
    (es : List (Nat × Nat × Nat)) (b : Bool) {c : BMCache × BMCache}
    (h : CachesOk tF tR c) :
    CachesOk tF tR (es.foldl (fun c e => applyEdge tF tR c e b) c) := by
  induction es generalizing c with
  | nil => exact h
  | cons e rest ih => exact ih (CachesOk_applyEdge h e b)

theorem CachesOk_applyCommitEdges {tF tR : (Nat × Nat) → Option (Finset Nat)}
    {c : BMCache × BMCache} (h : CachesOk tF tR c) (d : GraphCommitData) :
    CachesOk tF tR (applyCommitEdges tF tR c d) :=
  CachesOk_edgeFold d.rem_edges false (CachesOk_edgeFold d.add_edges true h)

theorem CachesOk_saveGraphsEdges {tF tR : (Nat × Nat) → Option (Finset Nat)}
    (ds : List GraphCommitData) {c : BMCache × BMCache}
    (h : CachesOk tF tR c) : CachesOk tF tR (saveGraphsEdges tF tR c ds) := by
  unfold saveGraphsEdges
  induction ds generalizing c with
  | nil => exact h
  | cons d rest ih => exact ih (CachesOk_applyCommitEdges h d)

theorem commitCache_read (c : BMCache)
    (t : (Nat × Nat) → Option (Finset Nat))
    (hnd : (bmKeys c).Nodup) (k : Nat × Nat) :
    readBM (commitCache c t) k = bmView t c k := by
  induction c generalizing t with
  | nil => rfl
  | cons p rest ih =>
      obtain ⟨k0, v0⟩ := p
      rw [bmKeys_cons] at hnd
      have hnd' := List.nodup_cons.mp hnd
      show readBM (commitCache rest
          (fun q => if q = k0 then (if v0 = ∅ then none else some v0) else t q)) k
        = bmView t ((k0, v0) :: rest) k
      rw [ih _ hnd'.2, bmView_cons]
      by_cases hk : k0 = k
      · subst hk
        rw [if_pos rfl, bmView_of_find_none (bmFind_none_of_not_mem hnd'.1)]
        show (if k0 = k0 then (if v0 = ∅ then none else some v0) else t k0).getD ∅ = v0
        rw [if_pos rfl]
        by_cases hv : v0 = ∅
        · rw [if_pos hv, hv]
          rfl
        · rw [if_neg hv]
          rfl
      · rw [if_neg hk]
        cases hf : bmFind rest k with
        | some bm =>
            rw [bmView_of_find_some hf, bmView_of_find_some hf]
        | none =>
            rw [bmView_of_find_none hf, bmView_of_find_none hf]
            show (if k = k0 then (if v0 = ∅ then none else some v0) else t k).getD ∅
              = (t k).getD ∅
            rw [if_neg (fun he => hk he.symm)]

/-- C1: edge-index symmetry after a committed write transaction.  Starting
from symmetric persisted `INDEX_FORWARD`/`INDEX_REVERSE` tables and the
fresh writer's empty caches, running the edge part of
`save_graphs_parallel` over any batch of `GraphCommitData` and flushing the
caches with `commit_cache` leaves the two tables symmetric: for every key
`(u, l)` and vertex `v`, `v ∈ FORWARD[(u, l)]` iff `u ∈ REVERSE[(v, l)]`. -/
theorem C1_edge_index_symmetry (tF tR : (Nat × Nat) → Option (Finset Nat))
    (hsym : ∀ u l v, v ∈ readBM tF (u, l) ↔ u ∈ readBM tR (v, l))
    (ds : List GraphCommitData) (u l v : Nat) :
    v ∈ readBM (commitCache (saveGraphsEdges tF tR ([], []) ds).1 tF) (u, l) ↔
    u ∈ readBM (commitCache (saveGraphsEdges tF tR ([], []) ds).2 tR) (v, l) := by
  have h0 : CachesOk tF tR ([], []) :=
    ⟨fun u l v => hsym u l v, List.nodup_nil, List.nodup_nil⟩
  have hok := CachesOk_saveGraphsEdges ds h0
  rw [commitCache_read _ _ hok.2.1, commitCache_read _ _ hok.2.2]
  exact hok.1 u l v

/-- Commit data for the C1 witness: one graph adding edge `(1, 7, 2)` and
removing edge `(3, 7, 4)`. -/
def c1CD : GraphCommitData := ⟨0, ⟨0, [], []⟩, [], [], [(1, 7, 2)], [(3, 7, 4)], []⟩

/-- Witness for C1 on empty initial tables and the single commit data
`c1CD`, instantiated at the added edge. -/
theorem C1_edge_index_symmetry_witness :
    (∀ u l v : Nat,
      v ∈ readBM (fun _ => none) (u, l) ↔ u ∈ readBM (fun _ => none) (v, l)) ∧
    (2 ∈ readBM (commitCache
        (saveGraphsEdges (fun _ => none) (fun _ => none) ([], []) [c1CD]).1
        (fun _ => none)) (1, 7) ↔ 1 ∈ readBM (commitCache
        (saveGraphsEdges (fun _ => none) (fun _ => none) ([], []) [c1CD]).2
        (fun _ => none)) (2, 7)) :=
  ⟨fun u l v => by simp [readBM],
   C1_edge_index_symmetry (fun _ => none) (fun _ => none)
     (fun u l v => by simp [readBM]) [c1CD] 1 7 2⟩

/-! ## C2: `remove_vertex` after `EdgeBuilder::set_source`

The failing input: three vertices `v0 v1 v2` (handles `(0,0) (0,1) (0,2)`),
three edges `e0 e1 e2`, each `(v0, 7, v1)` (handles `(0,0) (0,1) (0,2)`),
then `edit_edge(e0).set_source(v2)`.  `set_source` validates the vertex
handle `v2` against the EDGES arena — edge slot `(0,2)` exists, so the call
succeeds — and reassigns `e0.from` without relinking either endpoint's edge
list.  `remove_vertex(v2)` then returns `Ok` and removes the vertex, but
`v2`'s edge lists are empty, so edge `e0` stays live with `from = v2`. -/

/-- The builder state of the C2 failing input, just before `remove_vertex`. -/
def c2Input : Option GraphBuilder := do
  let b0 := GraphBuilder.new
  let (b1, v0) := b0.newVertex
  let (b2, v1) := b1.newVertex
  let (b3, _v2) := b2.newVertex
  let b4 ← b3.newEdge v0 7 v1
  let b5 ← b4.newEdge v0 7 v1
  let b6 ← b5.newEdge v0 7 v1
  -- edit_edge(e0).set_source(v2): v2's handle is (0,2)
  b6.setSource ⟨0, 0⟩ ⟨0, 2⟩

/-- C2 fails on the code: on the `c2Input` state, `remove_vertex (0,2)`
returns `Ok` and deletes the vertex, yet edge `(0,0)` is still live and its
`from` endpoint is the removed vertex handle `(0,2)`. -/
theorem C2_remove_vertex_misses_edge :
    (c2Input.map fun b =>
      let r := b.removeVertex ⟨0, 2⟩
      (r.2, (r.1).vertices.get ⟨0, 2⟩, ((r.1).edges.get ⟨0, 0⟩).map (·.from_v)))
    = some (true, (none : Option VertexData), some (⟨0, 2⟩ : Handle)) := by rfl

/-! ## C8: child-index invariants of `QueryBuilder::compile`
(`src/query/query_prepared.rs`, `src/query/query_builder.rs`)

`NodeHandle` is its underlying `Handle`; `PropertyHandle` is its `u64`.
The `visited` and `dup_cache` hash maps are association lists (a fresh
entry is prepended, and lookup takes the first match; `compile` inserts
each `self.nodes` index and each compiled node at most... a prepend is
last-write-wins, exactly `HashMap::insert`).  `get_build_order`'s
`while let` loop has no structural termination measure (it diverges on a
cyclic node graph, which `QueryBuilder`'s API cannot build but the
function itself does not rule out), so it takes explicit fuel and returns
`none` when the fuel runs out; the claim quantifies over all fuels, which
covers every terminating run of the source loop.  `ids.sort_unstable()`
is `List.insertionSort (· ≤ ·)` and `ids.dedup()` (which removes only
consecutive duplicates) is `dedupAdj`. -/

/-- `EdgeDirection`. -/
inductive EdgeDirection where
  | outgoing
  | incoming
deriving DecidableEq, Repr

/-- `QueryNode` (builder side): children are arena handles. -/
inductive QueryNode where
  | Union (children : List Handle)
  | Intersect (children : List Handle)
  | Difference (a b : Handle)
  | Attribute (attr : Nat) (value : Primitive)
  | Edge (dir : EdgeDirection) (label : Nat) (target : Handle)
  | SavedQuery (id : Nat)
deriving DecidableEq, Repr

/-- `QueryBuilder { nodes: GenVec<QueryNode>, root: Option<NodeHandle> }`. -/
structure QueryBuilder where
  nodes : GenVec QueryNode
  root : Option Handle

/-- `Node` (compiled side): children are output indices. -/
inductive Node where
  | Union (children : List Nat)
  | Intersect (children : List Nat)
  | Difference (a b : Nat)
  | Attribute (attr : Nat) (value : Nat)
  | Edge (dir : EdgeDirection) (label : Nat) (target : Nat)
  | SavedQuery (id : Nat)
deriving DecidableEq, Repr

/-- `PreparedQuery { nodes: Vec<Node>, root: NodeIdx }`. -/
structure PreparedQuery where
  nodes : List Node
  root : Nat
deriving DecidableEq, Repr

/-- The child handles pushed for a node by `get_build_order` (in source
push order; absent nodes and leaf nodes have none). -/
def buildChildren (qb : QueryBuilder) (h : Handle) : List Handle :=
  match qb.nodes.get h with
  | some (.Union cs) => cs
  | some (.Intersect cs) => cs
  | some (.Difference a b) => [a, b]
  | some (.Edge _ _ t) => [t]
  | _ => []

/-- `QueryBuilder::get_build_order`'s stack loop.  The list head is the
stack top; pushing the children in order puts the last child on top,
hence the `reverse`. -/
def buildOrderAux (qb : QueryBuilder) :
    Nat → List (Handle × Bool) → List (Nat × Bool) → List Handle →
    Option (List Handle)
  | 0, _, _, _ => none
  | _ + 1, [], _, order => some order
  | fuel + 1, (h, processed) :: stack, visited, order =>
      if (visited.lookup h.index).isSome then
        buildOrderAux qb fuel stack visited order
      else if processed then
        buildOrderAux qb fuel stack ((h.index, true) :: visited) (order ++ [h])
      else
        buildOrderAux qb fuel
          (((buildChildren qb h).map (fun c => (c, false))).reverse ++
            (h, true) :: stack)
          visited order

/-- `QueryBuilder::get_build_order`. -/
def getBuildOrder (qb : QueryBuilder) (fuel : Nat) (root : Handle) :
    Option (List Handle) :=
  buildOrderAux qb fuel [(root, false)] [] []

/-- `Vec::dedup`: remove consecutive duplicates. -/
def dedupAdj : List Nat → List Nat
  | [] => []
  | [a] => [a]
  | a :: b :: rest =>
      if a = b then dedupAdj (b :: rest) else a :: dedupAdj (b :: rest)

/-- The `visited` lookups for a children list (each `unwrap` is a bind). -/
def lookupAll (visited : List (Nat × Nat)) : List Handle → Option (List Nat)
  | [] => some []
  | h :: rest =>
      (visited.lookup h.index).bind fun i =>
        (lookupAll visited rest).map fun tl => i :: tl

/-- The `compiled_node` match of `QueryBuilder::compile`. -/
def compileNode (rapid : String → Nat) (visited : List (Nat × Nat)) :
    QueryNode → Option Node
  | .Union hs =>
      (lookupAll visited hs).map fun ids =>
        .Union (dedupAdj (List.insertionSort (· ≤ ·) ids))
  | .Intersect hs =>
      (lookupAll visited hs).map fun ids =>
        .Intersect (dedupAdj (List.insertionSort (· ≤ ·) ids))
  | .Difference a b =>
      (visited.lookup a.index).bind fun ia =>
        (visited.lookup b.index).map fun ib => .Difference ia ib
  | .Attribute attr value => some (.Attribute attr (value.hash rapid))
  | .Edge dir label target =>
      (visited.lookup target.index).map fun it => .Edge dir label it
  | .SavedQuery i => some (.SavedQuery i)

/-- `dup_cache.get(&compiled_node)`. -/
def dcFind : List (Node × Nat) → Node → Option Nat
  | [], _ => none
  | (n, i) :: rest, m => if n = m then some i else dcFind rest m

/-- The loop state of `QueryBuilder::compile`. -/
structure CompileState where
  output : List Node
  dup_cache : List (Node × Nat)
  visited : List (Nat × Nat)

/-- One iteration of `compile`'s loop over the build order. -/
def compileStep (rapid : String → Nat) (qb : QueryBuilder)
    (st : CompileState) (h : Handle) : Option CompileState :=
  (qb.nodes.get h).bind fun src =>
    (compileNode rapid st.visited src).map fun cn =>
      match dcFind st.dup_cache cn with
      | some idx => ⟨st.output, st.dup_cache, (h.index, idx) :: st.visited⟩
      | none =>
          ⟨st.output ++ [cn], (cn, st.output.length) :: st.dup_cache,
           (h.index, st.output.length) :: st.visited⟩

/-- `QueryBuilder::compile`. -/
def compile (rapid : String → Nat) (qb : QueryBuilder) (fuel : Nat) :
    Option PreparedQuery :=
  qb.root.bind fun root =>
    (getBuildOrder qb fuel root).bind fun order =>
      (order.foldl (fun o h => o.bind fun st => compileStep rapid qb st h)
          (some ⟨[], [], []⟩)).bind fun st =>
        (st.visited.lookup root.index).map fun ridx => ⟨st.output, ridx⟩

/-- The child output indices referenced by a compiled node. -/
def nodeChildren : Node → List Nat
  | .Union cs => cs
  | .Intersect cs => cs
  | .Difference a b => [a, b]
  | .Edge _ _ t => [t]
  | _ => []

theorem dedupAdj_subset : ∀ {l : List Nat} {x : Nat}, x ∈ dedupAdj l → x ∈ l
  | [], _, h => h
  | [_], _, h => h
  | a :: b :: rest, x, h => by
      have h' : x ∈ (if a = b then dedupAdj (b :: rest)
          else a :: dedupAdj (b :: rest)) := h
      by_cases he : a = b
      · rw [if_pos he] at h'
        exact List.mem_cons_of_mem a (dedupAdj_subset h')
      · rw [if_neg he] at h'
        rcases List.mem_cons.mp h' with hx | hx
        · rw [hx]
          exact List.mem_cons_self a (b :: rest)
        · exact List.mem_cons_of_mem a (dedupAdj_subset hx)

theorem dedupAdj_sorted : ∀ {l : List Nat}, l.Sorted (· ≤ ·) →
    (dedupAdj l).Sorted (· < ·)
  | [], _ => List.sorted_nil
  | [a], _ => List.sorted_singleton a
  | a :: b :: rest, h => by
      have h' : (b :: rest).Sorted (· ≤ ·) := (List.sorted_cons.mp h).2
      have hab : a ≤ b := (List.sorted_cons.mp h).1 b (List.mem_cons_self b rest)
      show (if a = b then dedupAdj (b :: rest)
          else a :: dedupAdj (b :: rest)).Sorted (· < ·)
      by_cases he : a = b
      · rw [if_pos he]
        exact dedupAdj_sorted h'
      · rw [if_neg he]
        refine List.sorted_cons.mpr ⟨?_, dedupAdj_sorted h'⟩
        intro x hx
        have hxm : x ∈ b :: rest := dedupAdj_subset hx
        have hbx : b ≤ x := by
          rcases List.mem_cons.mp hxm with hxb | hxr
          · subst hxb
            exact le_rfl
          · exact (List.sorted_cons.mp h').1 x hxr
        exact lt_of_lt_of_le (lt_of_le_of_ne hab he) hbx

theorem lookupAll_mem {visited : List (Nat × Nat)} {hs : List Handle}
    {ids : List Nat} (h : lookupAll visited hs = some ids) :
    ∀ c ∈ ids, ∃ k, (k, c) ∈ visited := by
  induction hs generalizing ids with
  | nil =>
      have h1 : some ([] : List Nat) = some ids := h
      injection h1 with h2
      subst h2
      intro c hc
      exact absurd hc (List.not_mem_nil c)
  | cons h0 rest ih =>
      intro c hc
      have h' : (visited.lookup h0.index).bind
          (fun i => (lookupAll visited rest).map fun tl => i :: tl) = some ids := h
      cases hl : visited.lookup h0.index with
      | none =>
          rw [hl] at h'
          exact Option.noConfusion h'
      | some i =>
          rw [hl] at h'
          simp only [Option.some_bind] at h'
          cases hr : lookupAll visited rest with
          | none =>
              rw [hr] at h'
              exact Option.noConfusion h'
          | some tl =>
              rw [hr] at h'
              simp only [Option.map_some'] at h'
              injection h' with h2
              subst h2
              rcases List.mem_cons.mp hc with he | hm
              · subst he
                exact ⟨h0.index, lookup_mem hl⟩
              · exact ih hr c hm

theorem dcFind_mem {dc : List (Node × Nat)} {n : Node} {i : Nat}
    (h : dcFind dc n = some i) : (n, i) ∈ dc := by
  induction dc with
  | nil => exact Option.noConfusion h
  | cons p rest ih =>
      obtain ⟨m, j⟩ := p
      have h' : (if m = n then some j else dcFind rest n) = some i := h
      by_cases hm : m = n
      · rw [if_pos hm] at h'
        injection h' with h2
        subst hm
        subst h2
        exact List.mem_cons_self _ _
      · rw [if_neg hm] at h'
        exact List.mem_cons_of_mem _ (ih h')

theorem compileNode_ok {rapid : String → Nat} {visited : List (Nat × Nat)}
    {src : QueryNode} {cn : Node}
    (h : compileNode rapid visited src = some cn) :
    (∀ c ∈ nodeChildren cn, ∃ kv ∈ visited, kv.2 = c) ∧
    (∀ cs, cn = Node.Union cs ∨ cn = Node.Intersect cs →
      List.Sorted (· < ·) cs) := by
  cases src with
  | Union hs =>
      simp only [compileNode] at h
      cases hl : lookupAll visited hs with
      | none =>
          rw [hl] at h
          exact Option.noConfusion h
      | some ids =>
          rw [hl] at h
          simp only [Option.map_some'] at h
          injection h with h1
          subst h1
          constructor
          · intro c hc
            have h2 : c ∈ List.insertionSort (· ≤ ·) ids := dedupAdj_subset hc
            have h3 : c ∈ ids :=
              (List.perm_insertionSort (· ≤ ·) ids).mem_iff.mp h2
            obtain ⟨k, hk⟩ := lookupAll_mem hl c h3
            exact ⟨(k, c), hk, rfl⟩
          · intro cs hcs
            rcases hcs with hcs | hcs
            · injection hcs with h2
              rw [← h2]
              exact dedupAdj_sorted (List.sorted_insertionSort (· ≤ ·) ids)
            · exact Node.noConfusion hcs
  | Intersect hs =>
      simp only [compileNode] at h
      cases hl : lookupAll visited hs with
      | none =>
          rw [hl] at h
          exact Option.noConfusion h
      | some ids =>
          rw [hl] at h
          simp only [Option.map_some'] at h
          injection h with h1
          subst h1
          constructor
          · intro c hc
            have h2 : c ∈ List.insertionSort (· ≤ ·) ids := dedupAdj_subset hc
            have h3 : c ∈ ids :=
              (List.perm_insertionSort (· ≤ ·) ids).mem_iff.mp h2
            obtain ⟨k, hk⟩ := lookupAll_mem hl c h3
            exact ⟨(k, c), hk, rfl⟩
          · intro cs hcs
            rcases hcs with hcs | hcs
            · exact Node.noConfusion hcs
            · injection hcs with h2
              rw [← h2]
              exact dedupAdj_sorted (List.sorted_insertionSort (· ≤ ·) ids)
  | Difference a b =>
      simp only [compileNode] at h
      cases ha : visited.lookup a.index with
      | none =>
          rw [ha] at h
          exact Option.noConfusion h
      | some ia =>
          rw [ha] at h
          simp only [Option.some_bind] at h
          cases hb : visited.lookup b.index with
          | none =>
              rw [hb] at h
              exact Option.noConfusion h
          | some ib =>
              rw [hb] at h
              simp only [Option.map_some'] at h
              injection h with h1
              subst h1
              constructor
              · intro c hc
                rcases List.mem_cons.mp hc with hc1 | hc1
                · exact ⟨(a.index, ia), lookup_mem ha, hc1.symm⟩
                · rcases List.mem_cons.mp hc1 with hc2 | hc2
                  · exact ⟨(b.index, ib), lookup_mem hb, hc2.symm⟩
                  · exact absurd hc2 (List.not_mem_nil c)
              · intro cs hcs
                rcases hcs with hcs | hcs <;> exact Node.noConfusion hcs
  | Attribute attr value =>
      simp only [compileNode] at h
      injection h with h1
      subst h1
      constructor
      · intro c hc
        exact absurd hc (List.not_mem_nil c)
      · intro cs hcs
        rcases hcs with hcs | hcs <;> exact Node.noConfusion hcs
  | Edge dir label target =>
      simp only [compileNode] at h
      cases ht : visited.lookup target.index with
      | none =>
          rw [ht] at h
          exact Option.noConfusion h
      | some it =>
          rw [ht] at h
          simp only [Option.map_some'] at h
          injection h with h1
          subst h1
          constructor
          · intro c hc
            rcases List.mem_cons.mp hc with hc1 | hc1
            · exact ⟨(target.index, it), lookup_mem ht, hc1.symm⟩
            · exact absurd hc1 (List.not_mem_nil c)
          · intro cs hcs
            rcases hcs with hcs | hcs <;> exact Node.noConfusion hcs
  | SavedQuery i =>
      simp only [compileNode] at h
      injection h with h1
      subst h1
      constructor
      · intro c hc
        exact absurd hc (List.not_mem_nil c)
      · intro cs hcs
        rcases hcs with hcs | hcs <;> exact Node.noConfusion hcs

/-- The loop invariant of `compile`: every `visited` and `dup_cache`
value is an index into `output`, and every node already in `output`
satisfies the two claimed child invariants at its own position. -/
def CInv (st : CompileState) : Prop :=
  (∀ kv ∈ st.visited, kv.2 < st.output.length) ∧
  (∀ ni ∈ st.dup_cache, ni.2 < st.output.length) ∧
  (∀ p n, st.output.get? p = some n →
    (∀ c ∈ nodeChildren n, c < p) ∧
    (∀ cs, n = Node.Union cs ∨ n = Node.Intersect cs →
      List.Sorted (· < ·) cs))

theorem CInv_compileStep {rapid : String → Nat} {qb : QueryBuilder}
    {st st' : CompileState} {h : Handle}
    (hs : compileStep rapid qb st h = some st') (hinv : CInv st) :
    CInv st' := by
  obtain ⟨hv, hd, hn⟩ := hinv
  unfold compileStep at hs
  cases hg : qb.nodes.get h with
  | none =>
      rw [hg] at hs
      exact Option.noConfusion hs
  | some src =>
      rw [hg] at hs
      simp only [Option.some_bind] at hs
      cases hc : compileNode rapid st.visited src with
      | none =>
          rw [hc] at hs
          exact Option.noConfusion hs
      | some cn =>
          rw [hc] at hs
          simp only [Option.map_some'] at hs
          injection hs with hs1
          obtain ⟨hmem, hsort⟩ := compileNode_ok hc
          have hchild : ∀ c ∈ nodeChildren cn, c < st.output.length := by
            intro c hcc
            obtain ⟨kv, hkv, hkc⟩ := hmem c hcc
            exact hkc ▸ hv kv hkv
          cases hdc : dcFind st.dup_cache cn with
          | some idx =>
              rw [hdc] at hs1
              subst hs1
              refine ⟨?_, hd, hn⟩
              intro kv hkv
              rcases List.mem_cons.mp hkv with he | hm
              · subst he
                exact hd _ (dcFind_mem hdc)
              · exact hv kv hm
          | none =>
              rw [hdc] at hs1
              subst hs1
              have hlen : st.output.length < (st.output ++ [cn]).length := by
                rw [List.length_append, List.length_singleton]
                omega
              refine ⟨?_, ?_, ?_⟩
              · intro kv hkv
                rcases List.mem_cons.mp hkv with he | hm
                · subst he
                  exact hlen
                · exact lt_trans (hv kv hm) hlen
              · intro ni hni
                rcases List.mem_cons.mp hni with he | hm
                · subst he
                  exact hlen
                · exact lt_trans (hd ni hm) hlen
              · intro p n hpn
                by_cases hp : p < st.output.length
                · rw [List.get?_append hp] at hpn
                  exact hn p n hpn
                · have hple : st.output.length ≤ p := Nat.le_of_not_lt hp
                  rcases Nat.eq_or_lt_of_le hple with he | hgt
                  · subst he
                    rw [List.get?_concat_length] at hpn
                    injection hpn with hpn1
                    subst hpn1
                    exact ⟨hchild, hsort⟩
                  · have hnone : (st.output ++ [cn]).get? p = none := by
                      rw [List.get?_eq_none, List.length_append]
                      show st.output.length + 1 ≤ p
                      omega
                    rw [hnone] at hpn
                    exact Option.noConfusion hpn

theorem compileFold_none (rapid : String → Nat) (qb : QueryBuilder)
    (order : List Handle) :
    order.foldl (fun o h => o.bind fun st => compileStep rapid qb st h)
      none = none := by
  induction order with
  | nil => rfl
  | cons h rest ih => exact ih

theorem CInv_fold {rapid : String → Nat} {qb : QueryBuilder}
    (order : List Handle) {st st' : CompileState}
    (h : order.foldl (fun o h => o.bind fun s => compileStep rapid qb s h)
        (some st) = some st')
    (hinv : CInv st) : CInv st' := by
  induction order generalizing st with
  | nil =>
      injection h with h1
      subst h1
      exact hinv
  | cons h0 rest ih =>
      have h' : rest.foldl (fun o h => o.bind fun s => compileStep rapid qb s h)
          (compileStep rapid qb st h0) = some st' := h
      cases hstep : compileStep rapid qb st h0 with
      | none =>
          rw [hstep, compileFold_none] at h'
          exact Option.noConfusion h'
      | some st1 =>
          rw [hstep] at h'
          exact ih h' (CInv_compileStep hstep hinv)

/-- C8: in every `PreparedQuery` produced by `compile` (over any fuel for
the build-order loop, covering every terminating run), the children list
of every `Union` and `Intersect` node is strictly increasing — sorted
ascending with duplicates removed — and every child index of every node,
including `Difference` operands and `Edge` targets, is strictly less than
the node's own index in the output list. -/
theorem C8_compile_child_invariants (rapid : String → Nat)
    (qb : QueryBuilder) (fuel : Nat) (pq : PreparedQuery)
    (h : compile rapid qb fuel = some pq) :
    ∀ p n, pq.nodes.get? p = some n →
      (∀ c ∈ nodeChildren n, c < p) ∧
      (∀ cs, n = Node.Union cs ∨ n = Node.Intersect cs →
        List.Sorted (· < ·) cs) := by
  unfold compile at h
  cases hroot : qb.root with
  | none =>
      rw [hroot] at h
      exact Option.noConfusion h
  | some root =>
      rw [hroot] at h
      simp only [Option.some_bind] at h
      cases hbo : getBuildOrder qb fuel root with
      | none =>
          rw [hbo] at h
          exact Option.noConfusion h
      | some order =>
          rw [hbo] at h
          simp only [Option.some_bind] at h
          cases hf : order.foldl
              (fun o h => o.bind fun st => compileStep rapid qb st h)
              (some ⟨[], [], []⟩) with
          | none =>
              rw [hf] at h
              exact Option.noConfusion h
          | some st =>
              rw [hf] at h
              simp only [Option.some_bind] at h
              cases hrl : st.visited.lookup root.index with
              | none =>
                  rw [hrl] at h
                  exact Option.noConfusion h
              | some ridx =>
                  rw [hrl] at h
                  simp only [Option.map_some'] at h
                  injection h with h1
                  have hinv0 : CInv ⟨[], [], []⟩ :=
                    ⟨fun kv hkv => absurd hkv (List.not_mem_nil kv),
                     fun ni hni => absurd hni (List.not_mem_nil ni),
                     fun p n hpn => Option.noConfusion hpn⟩
                  have hinv := CInv_fold order hf hinv0
                  intro p n hpn
                  rw [show pq.nodes = st.output from by rw [← h1]] at hpn
                  exact hinv.2.2 p n hpn

/-- The C8 witness builder: two attribute nodes and a `Union` whose
children arrive in reverse handle order, root at the union. -/
def c8QB : QueryBuilder :=
  ⟨⟨[⟨some (.Attribute 1 (.uint 5)), 0⟩,
     ⟨some (.Attribute 2 (.uint 6)), 0⟩,
     ⟨some (.Union [⟨0, 1⟩, ⟨0, 0⟩]), 0⟩], []⟩,
   some ⟨0, 2⟩⟩

/-- The compiled form of `c8QB`: the union's children come out sorted. -/
def c8PQ : PreparedQuery :=
  ⟨[.Attribute 1 72057594037927941, .Attribute 2 72057594037927942,
    .Union [0, 1]], 2⟩

/-- Witness for C8 on `c8QB` with fuel 20, instantiated at the union
node (index 2). -/
theorem C8_compile_child_invariants_witness :
    (compile (fun _ => 0) c8QB 20 = some c8PQ) ∧
    ((∀ c ∈ nodeChildren (Node.Union [0, 1]), c < 2) ∧
     (∀ cs, Node.Union [0, 1] = Node.Union cs ∨
        Node.Union [0, 1] = Node.Intersect cs → List.Sorted (· < ·) cs)) :=
  ⟨by decide,
   C8_compile_child_invariants (fun _ => 0) c8QB 20 c8PQ (by decide)
     2 (Node.Union [0, 1]) (by decide)⟩

/-! ## C9: cardinality bounds of the `LatticeReader::search` evaluator
(`src/lattice_db/reader.rs`)

The three index tables of a read snapshot hold already-deserialized
bitmaps (`(Nat × Nat) → Option (Finset Nat)`; serialization elided, so
the deserialize error paths vanish).  The `results` map
(`HashMap<NodeIdx, RoaringTreemap>`) is a function updated at the running
index.  A `Union` node unions the bitmaps of the children that are
present (`if let Some`); an `Intersect` node collects the present
children's bitmaps, sorts them by cardinality, and intersects them left
to right, stopping early when the accumulator becomes empty;
`Difference` and `Edge` unwrap their operands (`none` on a miss);
`SavedQuery` reads the scalar index under the `QUERY_MATCH` property
`qm`. -/

/-- The read snapshot's three open index tables. -/
structure ReadTables where
  scl : (Nat × Nat) → Option (Finset Nat)
  fwd : (Nat × Nat) → Option (Finset Nat)
  rev : (Nat × Nat) → Option (Finset Nat)

/-- The `Union` loop body: `res |= child_bitmap` when the child is
present in `results`, else skip. -/
def uStep (results : Nat → Option (Finset Nat)) (res : Finset Nat)
    (c : Nat) : Finset Nat :=
  match results c with
  | some cb => res ∪ cb
  | none => res

/-- The `Intersect` loop: `res &= other`, breaking when `res` is empty. -/
def intersectFold : Finset Nat → List (Finset Nat) → Finset Nat
  | res, [] => res
  | res, other :: rest =>
      let res' := res ∩ other
      if res' = ∅ then res' else intersectFold res' rest

/-- The per-node `match` of `LatticeReader::search`. -/
def evalNode (tb : ReadTables) (qm : Nat)
    (results : Nat → Option (Finset Nat)) : Node → Option (Finset Nat)
  | .Union children => some (children.foldl (uStep results) ∅)
  | .Intersect children =>
      if children = [] then some ∅
      else
        let bitmaps := children.filterMap results
        if bitmaps = [] then some ∅
        else
          let sorted := List.insertionSort
            (fun x y : Finset Nat => x.card ≤ y.card) bitmaps
          some (intersectFold (sorted.headD ∅) sorted.tail)
  | .Difference a b =>
      (results a).bind fun ba => (results b).map fun bb => ba \ bb
  | .Attribute attr value => some ((tb.scl (attr, value)).getD ∅)
  | .Edge dir label target =>
      (results target).map fun ids =>
        ids.sup fun id =>
          ((match dir with
            | .outgoing => tb.fwd
            | .incoming => tb.rev) (id, label)).getD ∅
  | .SavedQuery q => some ((tb.scl (qm, q)).getD ∅)

/-- `search`'s loop over `query.nodes.iter().enumerate()`, threading the
`results` map. -/
def searchLoop (tb : ReadTables) (qm : Nat) :
    List Node → Nat → (Nat → Option (Finset Nat)) →
    Option (Nat → Option (Finset Nat))
  | [], _, results => some results
  | n :: rest, idx, results =>
      (evalNode tb qm results n).bind fun bm =>
        searchLoop tb qm rest (idx + 1)
          (fun q => if q = idx then some bm else results q)

/-- `LatticeReader::search` (the final bitmap; the source then collects
it into a sorted `Vec<u64>`). -/
def search (tb : ReadTables) (qm : Nat) (pq : PreparedQuery) :
    Option (Finset Nat) :=
  (searchLoop tb qm pq.nodes 0 (fun _ => none)).map fun results =>
    (results pq.root).getD ∅

theorem uStep_superset (results : Nat → Option (Finset Nat))
    (res : Finset Nat) (c : Nat) : res ⊆ uStep results res c := by
  unfold uStep
  cases results c with
  | some cb => exact Finset.subset_union_left
  | none => exact Finset.Subset.refl res

theorem unionFold_acc (results : Nat → Option (Finset Nat))
    (children : List Nat) :
    ∀ res : Finset Nat, res ⊆ children.foldl (uStep results) res := by
  induction children with
  | nil => intro res; exact Finset.Subset.refl res
  | cons c rest ih =>
      intro res
      exact Finset.Subset.trans (uStep_superset results res c)
        (ih (uStep results res c))

theorem unionFold_mem (results : Nat → Option (Finset Nat)) {a : Nat}
    {A : Finset Nat} (ha : results a = some A) :
    ∀ {children : List Nat}, a ∈ children →
      ∀ res : Finset Nat, A ⊆ children.foldl (uStep results) res := by
  intro children
  induction children with
  | nil =>
      intro hac
      exact absurd hac (List.not_mem_nil a)
  | cons c rest ih =>
      intro hac res
      rcases List.mem_cons.mp hac with he | hm
      · have hsub : A ⊆ uStep results res c := by
          unfold uStep
          rw [← he, ha]
          exact Finset.subset_union_right
        exact Finset.Subset.trans hsub
          (unionFold_acc results rest (uStep results res c))
      · exact ih hm (uStep results res c)

theorem intersectFold_subset_init : ∀ (res : Finset Nat)
    (l : List (Finset Nat)), intersectFold res l ⊆ res
  | res, [] => Finset.Subset.refl res
  | res, other :: rest => by
      show (if res ∩ other = ∅ then res ∩ other
        else intersectFold (res ∩ other) rest) ⊆ res
      by_cases he : res ∩ other = ∅
      · rw [if_pos he]
        exact Finset.inter_subset_left
      · rw [if_neg he]
        exact Finset.Subset.trans (intersectFold_subset_init (res ∩ other) rest)
          Finset.inter_subset_left

theorem intersectFold_subset_mem : ∀ (res : Finset Nat)
    {l : List (Finset Nat)} {X : Finset Nat}, X ∈ l →
      intersectFold res l ⊆ X
  | _, [], _, hX => absurd hX (List.not_mem_nil _)
  | res, other :: rest, X, hX => by
      show (if res ∩ other = ∅ then res ∩ other
        else intersectFold (res ∩ other) rest) ⊆ X
      rcases List.mem_cons.mp hX with he | hm
      · by_cases hemp : res ∩ other = ∅
        · rw [if_pos hemp, he]
          exact Finset.inter_subset_right
        · rw [if_neg hemp, he]
          exact Finset.Subset.trans (intersectFold_subset_init (res ∩ other) rest)
            Finset.inter_subset_right
      · by_cases hemp : res ∩ other = ∅
        · rw [if_pos hemp, hemp]
          exact Finset.empty_subset X
        · rw [if_neg hemp]
          exact intersectFold_subset_mem (res ∩ other) hm

theorem evalNode_union_bound {tb : ReadTables} {qm : Nat}
    {results : Nat → Option (Finset Nat)} {children : List Nat}
    {a b : Nat} {A B : Finset Nat}
    (ha : results a = some A) (hb : results b = some B)
    (hac : a ∈ children) (hbc : b ∈ children) {U : Finset Nat}
    (hU : evalNode tb qm results (Node.Union children) = some U) :
    max A.card B.card ≤ U.card := by
  have h1 : some (children.foldl (uStep results) ∅) = some U := hU
  injection h1 with h2
  rw [← h2]
  exact max_le (Finset.card_le_card (unionFold_mem results ha hac ∅))
    (Finset.card_le_card (unionFold_mem results hb hbc ∅))

theorem evalNode_intersect_bound {tb : ReadTables} {qm : Nat}
    {results : Nat → Option (Finset Nat)} {children : List Nat}
    {a b : Nat} {A B : Finset Nat}
    (ha : results a = some A) (hb : results b = some B)
    (hac : a ∈ children) (hbc : b ∈ children) {I : Finset Nat}
    (hI : evalNode tb qm results (Node.Intersect children) = some I) :
    I.card ≤ min A.card B.card := by
  have hne : children ≠ [] := List.ne_nil_of_mem hac
  have hAbm : A ∈ children.filterMap results :=
    List.mem_filterMap.mpr ⟨a, hac, ha⟩
  have hBbm : B ∈ children.filterMap results :=
    List.mem_filterMap.mpr ⟨b, hbc, hb⟩
  have hbne : children.filterMap results ≠ [] := List.ne_nil_of_mem hAbm
  simp only [evalNode] at hI
  rw [if_neg hne] at hI
  rw [if_neg hbne] at hI
  injection hI with h2
  have hAs : A ∈ List.insertionSort (fun x y : Finset Nat => x.card ≤ y.card)
      (children.filterMap results) :=
    (List.perm_insertionSort _ _).mem_iff.mpr hAbm
  have hBs : B ∈ List.insertionSort (fun x y : Finset Nat => x.card ≤ y.card)
      (children.filterMap results) :=
    (List.perm_insertionSort _ _).mem_iff.mpr hBbm
  cases hs0 : List.insertionSort (fun x y : Finset Nat => x.card ≤ y.card)
      (children.filterMap results) with
  | nil =>
      rw [hs0] at hAs
      exact absurd hAs (List.not_mem_nil A)
  | cons h0 t0 =>
      rw [hs0] at hAs hBs h2
      rw [← h2]
      have hsubA : intersectFold ((h0 :: t0).headD ∅) (h0 :: t0).tail ⊆ A := by
        show intersectFold h0 t0 ⊆ A
        rcases List.mem_cons.mp hAs with he | hm
        · rw [he]
          exact intersectFold_subset_init h0 t0
        · exact intersectFold_subset_mem h0 hm
      have hsubB : intersectFold ((h0 :: t0).headD ∅) (h0 :: t0).tail ⊆ B := by
        show intersectFold h0 t0 ⊆ B
        rcases List.mem_cons.mp hBs with he | hm
        · rw [he]
          exact intersectFold_subset_init h0 t0
        · exact intersectFold_subset_mem h0 hm
      exact le_min (Finset.card_le_card hsubA) (Finset.card_le_card hsubB)

theorem searchLoop_stable {tb : ReadTables} {qm : Nat} :
    ∀ {nodes : List Node} {idx : Nat}
      {results R : Nat → Option (Finset Nat)},
      searchLoop tb qm nodes idx results = some R →
      ∀ q, q < idx → R q = results q
  | [], _, results, R, h, q, _ => by
      injection h with h1
      rw [← h1]
  | n0 :: rest, idx, results, R, h, q, hq => by
      have h' : (evalNode tb qm results n0).bind (fun bm =>
          searchLoop tb qm rest (idx + 1)
            (fun q => if q = idx then some bm else results q)) = some R := h
      cases he : evalNode tb qm results n0 with
      | none =>
          rw [he] at h'
          exact Option.noConfusion h'
      | some bm =>
          rw [he] at h'
          simp only [Option.some_bind] at h'
          have hst := searchLoop_stable h' q (by omega)
          rw [hst, if_neg (Nat.ne_of_lt hq)]

theorem searchLoop_eval {tb : ReadTables} {qm : Nat} :
    ∀ {nodes : List Node} {idx : Nat}
      {results R : Nat → Option (Finset Nat)},
      searchLoop tb qm nodes idx results = some R →
      ∀ j n, nodes.get? j = some n →
        ∃ rj bm, evalNode tb qm rj n = some bm ∧ R (idx + j) = some bm ∧
          (∀ q, q < idx + j → rj q = R q)
  | [], _, _, _, _, j, n, hj => absurd hj (by simp)
  | n0 :: rest, idx, results, R, h, j, n, hj => by
      have h' : (evalNode tb qm results n0).bind (fun bm =>
          searchLoop tb qm rest (idx + 1)
            (fun q => if q = idx then some bm else results q)) = some R := h
      cases he : evalNode tb qm results n0 with
      | none =>
          rw [he] at h'
          exact Option.noConfusion h'
      | some bm0 =>
          rw [he] at h'
          simp only [Option.some_bind] at h'
          cases j with
          | zero =>
              have hn : n0 = n := by
                have h2 : some n0 = some n := hj
                injection h2
              subst hn
              refine ⟨results, bm0, he, ?_, ?_⟩
              · have hst := searchLoop_stable h' idx (by omega)
                rw [Nat.add_zero, hst, if_pos rfl]
              · intro q hq
                have hst := searchLoop_stable h' q (by omega)
                rw [hst, if_neg (by omega : ¬q = idx)]
          | succ j' =>
              have hj' : rest.get? j' = some n := hj
              obtain ⟨rj, bm, heval, hR, hpres⟩ := searchLoop_eval h' j' n hj'
              refine ⟨rj, bm, heval, ?_, ?_⟩
              · rw [show idx + (j' + 1) = (idx + 1) + j' from by omega]
                exact hR
              · intro q hq
                exact hpres q (by omega)

/-- C9: cardinality bounds of the `search` evaluator.  When the loop over
a query's nodes completes with result map `R`, and position `p` holds a
`Union` (resp. `Intersect`) node whose children include `a` and `b` with
evaluated bitmaps `A` and `B`, the node's own result has cardinality at
least `max |A| |B|` (resp. at most `min |A| |B|`). -/
theorem C9_search_card_bounds (tb : ReadTables) (qm : Nat)
    (pq : PreparedQuery) (R : Nat → Option (Finset Nat))
    (hs : searchLoop tb qm pq.nodes 0 (fun _ => none) = some R)
    (p : Nat) (children : List Nat) (a b : Nat) (A B : Finset Nat)
    (hac : a ∈ children) (hbc : b ∈ children) (hap : a < p) (hbp : b < p)
    (hA : R a = some A) (hB : R b = some B) :
    (pq.nodes.get? p = some (Node.Union children) →
      ∃ U, R p = some U ∧ max A.card B.card ≤ U.card) ∧
    (pq.nodes.get? p = some (Node.Intersect children) →
      ∃ I, R p = some I ∧ I.card ≤ min A.card B.card) := by
  constructor
  · intro hp
    obtain ⟨rj, bm, heval, hRp, hpres⟩ := searchLoop_eval hs p _ hp
    rw [Nat.zero_add] at hRp
    refine ⟨bm, hRp, ?_⟩
    have ha' : rj a = some A := by
      rw [hpres a (by omega)]
      exact hA
    have hb' : rj b = some B := by
      rw [hpres b (by omega)]
      exact hB
    exact evalNode_union_bound ha' hb' hac hbc heval
  · intro hp
    obtain ⟨rj, bm, heval, hRp, hpres⟩ := searchLoop_eval hs p _ hp
    rw [Nat.zero_add] at hRp
    refine ⟨bm, hRp, ?_⟩
    have ha' : rj a = some A := by
      rw [hpres a (by omega)]
      exact hA
    have hb' : rj b = some B := by
      rw [hpres b (by omega)]
      exact hB
    exact evalNode_intersect_bound ha' hb' hac hbc heval

/-- Read snapshot for the C9 witness: the scalar index maps attribute
key `(1, 100)` to `{1, 2}` and `(2, 200)` to `{2, 3}`. -/
def c9T : ReadTables :=
  ⟨fun k => if k = (1, 100) then some {1, 2}
    else if k = (2, 200) then some {2, 3} else none,
   fun _ => none, fun _ => none⟩

/-- The C9 witness query: two attribute leaves, their union at index 2
and their intersection at index 3. -/
def c9PQ : PreparedQuery :=
  ⟨[.Attribute 1 100, .Attribute 2 200, .Union [0, 1], .Intersect [0, 1]], 2⟩

/-- The result map of running the search loop on `c9PQ` over `c9T`. -/
def c9Rfun : Nat → Option (Finset Nat) := fun q =>
  (searchLoop c9T 99 c9PQ.nodes 0 (fun _ => none)).bind fun R => R q

/-- Witness for C9: on `c9PQ` the union node's bitmap dominates
`max 2 2` and the intersection node's bitmap is bounded by `min 2 2`. -/
theorem C9_search_card_bounds_witness :
    ((∃ U, c9Rfun 2 = some U ∧
        max (Finset.card ({1, 2} : Finset Nat))
          (Finset.card ({2, 3} : Finset Nat)) ≤ U.card) ∧
     (∃ I, c9Rfun 3 = some I ∧
        I.card ≤ min (Finset.card ({1, 2} : Finset Nat))
          (Finset.card ({2, 3} : Finset Nat)))) :=
  ⟨(C9_search_card_bounds c9T 99 c9PQ c9Rfun rfl 2 [0, 1] 0 1 {1, 2} {2, 3}
      (by decide) (by decide) (by decide) (by decide) (by decide) (by decide)).1
    (by decide),
   (C9_search_card_bounds c9T 99 c9PQ c9Rfun rfl 3 [0, 1] 0 1 {1, 2} {2, 3}
      (by decide) (by decide) (by decide) (by decide) (by decide) (by decide)).2
    (by decide)⟩

end LatticeDb
